import Mathlib

/-!
Verification of the backfill maintenance jobs in src/convex/maintenance.ts.

The document store is modelled as lists of documents ordered ascending by
identity (the pagination order); the opaque pagination cursor is modelled as
a position in that order.  The external collaborators (the file-hash function
of lib/skills.ts and the patch-derivation functions behind
buildSkillSummaryBackfillPatch of lib/skillBackfill.ts) are not in the
sources and are treated as parameters or modelled from the spec where noted.
JavaScript numbers are modelled as rationals plus the non-finite values, and
JavaScript truthiness of optional strings is modelled explicitly.
-/

/-- A JavaScript number: a finite rational, NaN, or an infinity. -/
inductive JSNum where
  | fin (q : ℚ)
  | nan
  | posInf
  | negInf
deriving DecidableEq

/-- Math.trunc on a finite value: drop the fractional digits (round toward zero). -/
def jsTrunc (q : ℚ) : ℤ :=
  if 0 ≤ q then ⌊q⌋ else ⌈q⌉

/-- clampInt from src/convex/maintenance.ts: truncate, map non-finite input to
the lower bound, then clamp into the given range. -/
def clampInt (value : JSNum) (lo hi : ℤ) : ℤ :=
  match value with
  | .fin q => min hi (max lo (jsTrunc q))
  | _ => lo

def defaultBatchSize : JSNum := .fin 50
def maxBatchSizeBound : ℤ := 200
def defaultMaxBatches : JSNum := .fin 20
def maxMaxBatchesBound : ℤ := 200

/-- JavaScript truthiness of an optional string: undefined and the empty
string are falsy. -/
def jsTruthyStr : Option String → Bool
  | none => false
  | some s => s ≠ ""

/-- Parsed skill metadata: a frontmatter mapping plus optional untyped
metadata and clawdis blocks (the inner values are opaque to this module). -/
structure ParsedSkillData where
  frontmatter : List (String × String)
  metadata : Option String
  clawdis : Option String
deriving DecidableEq

/-- One entry of a version file list: {path, sha256, storageId}. -/
structure SkillFile where
  path : String
  sha256 : String
  storageId : Nat
deriving DecidableEq

/-- A document of the skills table. -/
structure Skill where
  docId : Nat
  latestVersionId : Option Nat
  summary : Option String
  updatedAt : Nat
deriving DecidableEq

/-- A document of the skillVersions table. -/
structure SkillVersion where
  docId : Nat
  skillId : Nat
  files : List SkillFile
  parsed : ParsedSkillData
  fingerprint : Option String
deriving DecidableEq

/-- A document of the skillVersionFingerprints table. -/
structure FingerprintEntry where
  docId : Nat
  skillId : Nat
  versionId : Nat
  fingerprint : String
  createdAt : Nat
deriving DecidableEq

/-- The document store: the three tables (each ordered ascending by identity,
which is the pagination order), the current clock, and the id allocator used
by inserts.  Blob storage is kept separate because these jobs never write it. -/
structure Store where
  skills : List Skill
  versions : List SkillVersion
  fpEntries : List FingerprintEntry
  now : Nat
  nextId : Nat
deriving DecidableEq

/-- db.get on the skillVersions table. -/
def findVersion (s : Store) (vid : Nat) : Option SkillVersion :=
  s.versions.find? (fun v => v.docId == vid)

/-- The indexed lookup of fingerprint entries of one version (index by_version). -/
def entriesFor (s : Store) (vid : Nat) : List FingerprintEntry :=
  s.fpEntries.filter (fun e => e.versionId == vid)

/-- Blob storage lookup (ctx.storage.get followed by reading the text). -/
def lookupBlob (blobs : List (Nat × String)) (sid : Nat) : Option String :=
  (blobs.find? (fun b => b.1 == sid)).map (fun b => b.2)

/-- The optional patch returned by the summary patch-computation function. -/
structure SummaryPatch where
  summary : Option String
  parsed : Option ParsedSkillData
deriving DecidableEq

/-- Modelled from the spec: buildSkillSummaryBackfillPatch lives in
src/convex/lib/skillBackfill.ts, which is not among the sources.  Per the
spec it is a pure function mapping (README text, current summary, current
parsed data) to an optional {summary?, parsed?} patch, and an empty patch
means the item already matches the state derived from the README, so that
re-running over corrected records recomputes the same already-correct
verdict.  It is modelled as comparing the current values against values
derived purely from the README text by two opaque derivation functions. -/
def buildSkillSummaryBackfillPatch (deriveS : String → Option String)
    (deriveP : String → Option ParsedSkillData) (readmeText : String)
    (currentSummary : Option String) (currentParsed : ParsedSkillData) : SummaryPatch :=
  { summary :=
      match deriveS readmeText with
      | some d => if currentSummary = some d then none else some d
      | none => none
    parsed :=
      match deriveP readmeText with
      | some p => if currentParsed = p then none else some p
      | none => none }

/-! ## Summary backfill: page fetcher -/

/-- One classified item of a summary-backfill page. -/
inductive BackfillPageItem where
  | ok (skillId versionId : Nat) (skillSummary : Option String)
      (versionParsed : ParsedSkillData) (readmeStorageId : Nat)
  | missingLatestVersion (skillId : Nat)
  | missingVersionDoc (skillId versionId : Nat)
  | missingReadme (skillId versionId : Nat)
deriving DecidableEq

structure BackfillPageResult where
  items : List BackfillPageItem
  cursor : Nat
  isDone : Bool
deriving DecidableEq

/-- The README file match of getSkillBackfillPageInternal: the first file
whose lower-cased path is skill.md or skills.md. -/
def findReadmeFile (files : List SkillFile) : Option SkillFile :=
  files.find? (fun f => f.path.toLower == "skill.md" || f.path.toLower == "skills.md")

/-- The per-skill classification of getSkillBackfillPageInternal. -/
def classifySkill (s : Store) (skill : Skill) : BackfillPageItem :=
  match skill.latestVersionId with
  | none => .missingLatestVersion skill.docId
  | some vid =>
    match findVersion s vid with
    | none => .missingVersionDoc skill.docId vid
    | some version =>
      match findReadmeFile version.files with
      | none => .missingReadme skill.docId version.docId
      | some readmeFile =>
        .ok skill.docId version.docId skill.summary version.parsed readmeFile.storageId

/-- The page computation of getSkillBackfillPageInternal at a cursor
position, for an already-clamped batch size. -/
def getSkillBackfillPageCore (s : Store) (pos : Nat) (n : Nat) : BackfillPageResult :=
  { items := ((s.skills.drop pos).take n).map (classifySkill s)
    cursor := pos + n
    isDone := decide (s.skills.length ≤ pos + n) }

/-- getSkillBackfillPageInternal: clamp the batch size, fetch one page and
classify it.  A query cannot write, so the store is returned unchanged. -/
def getSkillBackfillPage (s : Store) (cursor : Option Nat) (batchSize : Option JSNum) :
    BackfillPageResult × Store :=
  (getSkillBackfillPageCore s (cursor.getD 0)
    ((clampInt (batchSize.getD defaultBatchSize) 1 maxBatchSizeBound).toNat), s)

/-! ## Summary backfill: patch applier and orchestrator -/

/-- applySkillBackfillPatchInternal: overwrite the summary (bumping
updatedAt) when a summary string is provided, and overwrite the parsed
metadata when one is provided. -/
def applySkillBackfillPatch (s : Store) (skillId versionId : Nat)
    (summary : Option String) (parsed : Option ParsedSkillData) : Store :=
  let s1 :=
    match summary with
    | some str =>
      { s with skills := s.skills.map (fun sk =>
          if sk.docId == skillId then { sk with summary := some str, updatedAt := s.now } else sk) }
    | none => s
  match parsed with
  | some p =>
    { s1 with versions := s1.versions.map (fun v =>
        if v.docId == versionId then { v with parsed := p } else v) }
  | none => s1

structure BackfillStats where
  skillsScanned : Nat
  skillsPatched : Nat
  versionsPatched : Nat
  missingLatestVersion : Nat
  missingReadme : Nat
  missingStorageBlob : Nat
deriving DecidableEq

def BackfillStats.init : BackfillStats := ⟨0, 0, 0, 0, 0, 0⟩

/-- The loop body of backfillSkillSummariesInternalHandler for one item:
update the counters and, unless in dry-run mode, apply the patch.  The
skip conditions mirror the JavaScript truthiness tests of the source. -/
def summaryProcessItem (deriveS : String → Option String)
    (deriveP : String → Option ParsedSkillData) (blobs : List (Nat × String))
    (dryRun : Bool) (acc : BackfillStats × Store) (item : BackfillPageItem) :
    BackfillStats × Store :=
  let st := { acc.1 with skillsScanned := acc.1.skillsScanned + 1 }
  let s := acc.2
  match item with
  | .missingLatestVersion _ =>
    ({ st with missingLatestVersion := st.missingLatestVersion + 1 }, s)
  | .missingVersionDoc _ _ =>
    ({ st with missingLatestVersion := st.missingLatestVersion + 1 }, s)
  | .missingReadme _ _ =>
    ({ st with missingReadme := st.missingReadme + 1 }, s)
  | .ok skillId versionId skillSummary versionParsed readmeStorageId =>
    match lookupBlob blobs readmeStorageId with
    | none => ({ st with missingStorageBlob := st.missingStorageBlob + 1 }, s)
    | some readmeText =>
      let patch := buildSkillSummaryBackfillPatch deriveS deriveP readmeText
        skillSummary versionParsed
      if !jsTruthyStr patch.summary && patch.parsed == none then (st, s)
      else
        let st := if jsTruthyStr patch.summary then
          { st with skillsPatched := st.skillsPatched + 1 } else st
        let st := if patch.parsed.isSome then
          { st with versionsPatched := st.versionsPatched + 1 } else st
        if dryRun then (st, s)
        else (st, applySkillBackfillPatch s skillId versionId patch.summary patch.parsed)

def backfillIncompleteMsg : String := "Backfill incomplete (maxBatches reached)"

/-- The batch loop of backfillSkillSummariesInternalHandler: up to the given
number of batches, fetch a page at the cursor, process its items, and stop
once a page reports done; running out of batches before that raises the
incompleteness error. -/
def summaryRunBatches (deriveS : String → Option String)
    (deriveP : String → Option ParsedSkillData) (blobs : List (Nat × String))
    (dryRun : Bool) (bs : Nat) :
    Nat → Nat → BackfillStats × Store → Except String (BackfillStats × Store)
  | 0, _, _ => .error backfillIncompleteMsg
  | fuel + 1, pos, acc =>
    let page := getSkillBackfillPageCore acc.2 pos bs
    let acc1 := page.items.foldl (summaryProcessItem deriveS deriveP blobs dryRun) acc
    if page.isDone then .ok acc1
    else summaryRunBatches deriveS deriveP blobs dryRun bs fuel (pos + bs) acc1

structure BackfillActionArgs where
  dryRun : Option Bool
  batchSize : Option JSNum
  maxBatches : Option JSNum

/-- backfillSkillSummariesInternalHandler: clamp the arguments and drive the
batch loop from the start of the table with zeroed counters.  The page query
re-clamps the batch size it is handed; since the handler always passes an
already-clamped value that second clamp is the identity, so the loop is
expressed over the clamped value directly. -/
def backfillSkillSummariesHandler (deriveS : String → Option String)
    (deriveP : String → Option ParsedSkillData) (blobs : List (Nat × String))
    (args : BackfillActionArgs) (s : Store) : Except String (BackfillStats × Store) :=
  let dryRun := args.dryRun.getD false
  let bs := (clampInt (args.batchSize.getD defaultBatchSize) 1 maxBatchSizeBound).toNat
  let mb := (clampInt (args.maxBatches.getD defaultMaxBatches) 1 maxMaxBatchesBound).toNat
  summaryRunBatches deriveS deriveP blobs dryRun bs mb 0 (BackfillStats.init, s)

/-! ## Fingerprint backfill: page fetcher -/

structure FingerprintBackfillPageItem where
  skillId : Nat
  versionId : Nat
  versionFingerprint : Option String
  files : List (String × String)
  existingEntries : List (Nat × String)
deriving DecidableEq

structure FingerprintBackfillPageResult where
  items : List FingerprintBackfillPageItem
  cursor : Nat
  isDone : Bool
deriving DecidableEq

/-- The up-to-20 existing fingerprint entries read per version by
getSkillFingerprintBackfillPageInternal. -/
def fetchedEntries (s : Store) (vid : Nat) : List FingerprintEntry :=
  (entriesFor s vid).take 20

/-- The emission condition of getSkillFingerprintBackfillPageInternal:
needsFingerprintField (the stored fingerprint is JS-falsy, i.e. undefined or
the empty string), needsFingerprintEntry (no entries), or
hasFingerprintMismatch (a stored string fingerprint with entries that either
disagree among themselves or none of which equals the stored one). -/
def fpEmitCond (s : Store) (v : SkillVersion) : Bool :=
  let existing := fetchedEntries s v.docId
  let hasAnyEntry : Bool := existing.length > 0
  let entryFps := (existing.map (fun e => e.fingerprint)).dedup
  let hasFingerprintMismatch : Bool :=
    v.fingerprint.isSome && hasAnyEntry &&
      (entryFps.length ≠ 1 || !(entryFps.contains (v.fingerprint.getD "")))
  let needsFingerprintField : Bool :=
    match v.fingerprint with
    | none => true
    | some f => f == ""
  let needsFingerprintEntry : Bool := !hasAnyEntry
  needsFingerprintField || needsFingerprintEntry || hasFingerprintMismatch

/-- The work item emitted for one version: its file {path, sha256} pairs, its
stored fingerprint if any, and the summaries of the fetched entries. -/
def mkFpItem (s : Store) (v : SkillVersion) : FingerprintBackfillPageItem :=
  { skillId := v.skillId
    versionId := v.docId
    versionFingerprint := v.fingerprint
    files := v.files.map (fun f => (f.path, f.sha256))
    existingEntries := (fetchedEntries s v.docId).map (fun e => (e.docId, e.fingerprint)) }

/-- The page computation of getSkillFingerprintBackfillPageInternal at a
cursor position, for an already-clamped batch size. -/
def getSkillFingerprintBackfillPageCore (s : Store) (pos : Nat) (n : Nat) :
    FingerprintBackfillPageResult :=
  { items := (((s.versions.drop pos).take n).filter (fpEmitCond s)).map (mkFpItem s)
    cursor := pos + n
    isDone := decide (s.versions.length ≤ pos + n) }

/-- getSkillFingerprintBackfillPageInternal: clamp the batch size, fetch one
page of versions and emit the work items.  A query cannot write, so the store
is returned unchanged. -/
def getSkillFingerprintBackfillPage (s : Store) (cursor : Option Nat)
    (batchSize : Option JSNum) : FingerprintBackfillPageResult × Store :=
  (getSkillFingerprintBackfillPageCore s (cursor.getD 0)
    ((clampInt (batchSize.getD defaultBatchSize) 1 maxBatchSizeBound).toNat), s)

/-! ## Fingerprint backfill: patch applier and orchestrator -/

inductive FpApplyResult where
  | ok
  | missingVersion
deriving DecidableEq

/-- applySkillFingerprintBackfillPatchInternal: fail softly when the version
record no longer exists; otherwise patch the stored fingerprint field when
asked, and when asked to replace entries delete every listed existing entry
id and insert exactly one new entry carrying the computed fingerprint and the
current timestamp. -/
def applySkillFingerprintBackfillPatch (s : Store) (versionId : Nat)
    (fingerprint : String) (patchVersion replaceEntries : Bool)
    (existingEntryIds : List Nat) : FpApplyResult × Store :=
  match findVersion s versionId with
  | none => (.missingVersion, s)
  | some version =>
    let s1 :=
      if patchVersion then
        { s with versions := s.versions.map (fun v =>
            if v.docId == versionId then { v with fingerprint := some fingerprint } else v) }
      else s
    let s2 :=
      if replaceEntries then
        let deleted := existingEntryIds.foldl
          (fun (acc : Store) id =>
            { acc with fpEntries := acc.fpEntries.filter (fun e => e.docId != id) })
          s1
        { deleted with
          fpEntries := deleted.fpEntries ++
            [{ docId := deleted.nextId
               skillId := version.skillId
               versionId := version.docId
               fingerprint := fingerprint
               createdAt := deleted.now }]
          nextId := deleted.nextId + 1 }
      else s1
    (.ok, s2)

structure FingerprintBackfillStats where
  versionsScanned : Nat
  versionsPatched : Nat
  fingerprintsInserted : Nat
  fingerprintMismatches : Nat
deriving DecidableEq

def FingerprintBackfillStats.init : FingerprintBackfillStats := ⟨0, 0, 0, 0⟩

/-- The correctness verdicts recomputed per item by
backfillSkillFingerprintsInternalHandler: entryIsCorrect (exactly one
distinct existing entry fingerprint, equal to the computed one) and
versionFingerprintIsCorrect (the stored field equals the computed one).
Returns (shouldPatchVersion, shouldReplaceEntries). -/
def fpItemDecision (hashFiles : List (String × String) → String)
    (item : FingerprintBackfillPageItem) : Bool × Bool :=
  let fingerprint := hashFiles item.files
  let existingFps := (item.existingEntries.map (fun e => e.2)).dedup
  let hasAnyEntry : Bool := item.existingEntries.length > 0
  let entryIsCorrect : Bool :=
    hasAnyEntry && existingFps.length == 1 && existingFps.contains fingerprint
  let versionFingerprintIsCorrect : Bool := item.versionFingerprint == some fingerprint
  (!versionFingerprintIsCorrect, !entryIsCorrect)

/-- The loop body of backfillSkillFingerprintsInternalHandler for one item:
update the counters and, unless in dry-run mode and unless nothing needs
correction, call the patch applier (whose result the source discards). -/
def fpProcessItem (hashFiles : List (String × String) → String) (dryRun : Bool)
    (acc : FingerprintBackfillStats × Store) (item : FingerprintBackfillPageItem) :
    FingerprintBackfillStats × Store :=
  let fingerprint := hashFiles item.files
  let existingFps := (item.existingEntries.map (fun e => e.2)).dedup
  let hasAnyEntry : Bool := item.existingEntries.length > 0
  let entryIsCorrect : Bool :=
    hasAnyEntry && existingFps.length == 1 && existingFps.contains fingerprint
  let versionFingerprintIsCorrect : Bool := item.versionFingerprint == some fingerprint
  let st := { acc.1 with versionsScanned := acc.1.versionsScanned + 1 }
  let st := if hasAnyEntry && !entryIsCorrect then
    { st with fingerprintMismatches := st.fingerprintMismatches + 1 } else st
  let shouldPatchVersion : Bool := !versionFingerprintIsCorrect
  let shouldReplaceEntries : Bool := !entryIsCorrect
  if !shouldPatchVersion && !shouldReplaceEntries then (st, acc.2)
  else
    let st := if shouldPatchVersion then
      { st with versionsPatched := st.versionsPatched + 1 } else st
    let st := if shouldReplaceEntries then
      { st with fingerprintsInserted := st.fingerprintsInserted + 1 } else st
    if dryRun then (st, acc.2)
    else
      (st, (applySkillFingerprintBackfillPatch acc.2 item.versionId fingerprint
        shouldPatchVersion shouldReplaceEntries
        (if shouldReplaceEntries then item.existingEntries.map (fun e => e.1) else [])).2)

/-- The batch loop of backfillSkillFingerprintsInternalHandler. -/
def fpRunBatches (hashFiles : List (String × String) → String) (dryRun : Bool)
    (bs : Nat) :
    Nat → Nat → FingerprintBackfillStats × Store →
      Except String (FingerprintBackfillStats × Store)
  | 0, _, _ => .error backfillIncompleteMsg
  | fuel + 1, pos, acc =>
    let page := getSkillFingerprintBackfillPageCore acc.2 pos bs
    let acc1 := page.items.foldl (fpProcessItem hashFiles dryRun) acc
    if page.isDone then .ok acc1
    else fpRunBatches hashFiles dryRun bs fuel (pos + bs) acc1

/-- backfillSkillFingerprintsInternalHandler: clamp the arguments and drive
the batch loop from the start of the skillVersions table.  As with the
summary job, the second clamp inside the page query is the identity on the
already-clamped batch size the handler passes. -/
def backfillSkillFingerprintsHandler (hashFiles : List (String × String) → String)
    (args : BackfillActionArgs) (s : Store) :
    Except String (FingerprintBackfillStats × Store) :=
  let dryRun := args.dryRun.getD false
  let bs := (clampInt (args.batchSize.getD defaultBatchSize) 1 maxBatchSizeBound).toNat
  let mb := (clampInt (args.maxBatches.getD defaultMaxBatches) 1 maxMaxBatchesBound).toNat
  fpRunBatches hashFiles dryRun bs mb 0 (FingerprintBackfillStats.init, s)

/-! ## Specification-side definitions used to state the claims -/

/-- Case-insensitive string equality, as worded in claim C5. -/
def caseInsensitiveEqStr (a b : String) : Bool := a.toLower == b.toLower

/-- The classification exactly as claim C5 words it: missingLatestVersion
when latestVersionId is absent; missingVersionDoc when the referenced
version record does not exist; missingReadme when the version has no file
whose path case-insensitively equals skill.md or skills.md; otherwise ok
carrying the summary, the parsed metadata and the matched README storage
reference. -/
def specClassifySkill (s : Store) (skill : Skill) : BackfillPageItem :=
  match skill.latestVersionId with
  | none => .missingLatestVersion skill.docId
  | some vid =>
    match findVersion s vid with
    | none => .missingVersionDoc skill.docId vid
    | some version =>
      match version.files.find? (fun f =>
          caseInsensitiveEqStr f.path "skill.md" || caseInsensitiveEqStr f.path "skills.md") with
      | none => .missingReadme skill.docId version.docId
      | some readmeFile =>
        .ok skill.docId version.docId skill.summary version.parsed readmeFile.storageId

/-- The emission condition exactly as claim C7 words it, where an absent
stored fingerprint field means the field is undefined: the field is absent,
or there are no fingerprint entries, or the field is present and entries
exist and they disagree among themselves or none of them equals the stored
fingerprint.  The entries are the up-to-20 the page fetcher reads. -/
def specFpEmitClaim (s : Store) (v : SkillVersion) : Bool :=
  let existing := fetchedEntries s v.docId
  let fps := (existing.map (fun e => e.fingerprint)).dedup
  (v.fingerprint == none) || existing.isEmpty ||
    (v.fingerprint.isSome && !existing.isEmpty &&
      (fps.length ≠ 1 || !(fps.contains (v.fingerprint.getD ""))))

/-- The emission condition of claim C7 amended at its single failure point:
a stored fingerprint field counts as missing also when it is the empty
string (the source tests JS truthiness, not presence). -/
def specFpEmitAmended (s : Store) (v : SkillVersion) : Bool :=
  (v.fingerprint == some "") || specFpEmitClaim s v

/-- The {path, sha256} projection of a version file list handed to the hash
function. -/
def normFiles (files : List SkillFile) : List (String × String) :=
  files.map (fun f => (f.path, f.sha256))

/-- The canonical fingerprint of a version: the external hash of its file
list. -/
def hashOfVersion (hashFiles : List (String × String) → String) (v : SkillVersion) : String :=
  hashFiles (normFiles v.files)

/-- The inconsistency predicate exactly as claim C1 words it: zero
fingerprint entries, more than one distinct entry fingerprint, or a stored
fingerprint field differing from the canonical hash of the files. -/
def fpClaimInconsistent (hashFiles : List (String × String) → String)
    (s : Store) (v : SkillVersion) : Bool :=
  let es := entriesFor s v.docId
  es.isEmpty || ((es.map (fun e => e.fingerprint)).dedup.length > 1) ||
    (v.fingerprint != some (hashOfVersion hashFiles v))

/-- The repaired target state of claim C1 for one version: the stored
fingerprint field equals the canonical hash and there is exactly one
fingerprint entry, whose value is that hash. -/
def fpRepaired (hashFiles : List (String × String) → String)
    (s : Store) (v : SkillVersion) : Prop :=
  v.fingerprint = some (hashOfVersion hashFiles v) ∧
    (entriesFor s v.docId).map (fun e => e.fingerprint) = [hashOfVersion hashFiles v]

/-- A version whose fingerprint state is settled: the stored field equals the
canonical hash and every (at least one) entry carries that hash.  This is the
state the backfill leaves corrected records in; the fetcher skips it. -/
def fpSettled (hashFiles : List (String × String) → String)
    (s : Store) (v : SkillVersion) : Prop :=
  v.fingerprint = some (hashOfVersion hashFiles v) ∧ entriesFor s v.docId ≠ [] ∧
    ∀ e ∈ entriesFor s v.docId, e.fingerprint = hashOfVersion hashFiles v

/-- Store well-formedness: document ids are unique per table, allocated ids
are fresh, and no two skills point at the same latest version (each version
belongs to one skill). -/
structure WFStore (s : Store) : Prop where
  skillsNodup : (s.skills.map (fun sk => sk.docId)).Nodup
  versionsNodup : (s.versions.map (fun v => v.docId)).Nodup
  entriesNodup : (s.fpEntries.map (fun e => e.docId)).Nodup
  entriesFresh : ∀ e ∈ s.fpEntries, e.docId < s.nextId
  refsInj : s.skills.Pairwise (fun a b =>
    ∀ vid, a.latestVersionId = some vid → b.latestVersionId ≠ some vid)

/-! ## Stats-only reference runs (used to relate dry runs and real runs) -/

/-- The counter updates of the summary loop body, which read nothing from the
document store (only the immutable blob store). -/
def summaryItemStats (deriveS : String → Option String)
    (deriveP : String → Option ParsedSkillData) (blobs : List (Nat × String))
    (st : BackfillStats) (item : BackfillPageItem) : BackfillStats :=
  let st := { st with skillsScanned := st.skillsScanned + 1 }
  match item with
  | .missingLatestVersion _ =>
    { st with missingLatestVersion := st.missingLatestVersion + 1 }
  | .missingVersionDoc _ _ =>
    { st with missingLatestVersion := st.missingLatestVersion + 1 }
  | .missingReadme _ _ =>
    { st with missingReadme := st.missingReadme + 1 }
  | .ok _ _ skillSummary versionParsed readmeStorageId =>
    match lookupBlob blobs readmeStorageId with
    | none => { st with missingStorageBlob := st.missingStorageBlob + 1 }
    | some readmeText =>
      let patch := buildSkillSummaryBackfillPatch deriveS deriveP readmeText
        skillSummary versionParsed
      if !jsTruthyStr patch.summary && patch.parsed == none then st
      else
        let st := if jsTruthyStr patch.summary then
          { st with skillsPatched := st.skillsPatched + 1 } else st
        if patch.parsed.isSome then
          { st with versionsPatched := st.versionsPatched + 1 } else st

/-- The summary batch loop with the mutations erased: it computes the same
statistics as any run whose page reads coincide with reads from the fixed
store s0. -/
def summaryStatsBatches (deriveS : String → Option String)
    (deriveP : String → Option ParsedSkillData) (blobs : List (Nat × String))
    (s0 : Store) (bs : Nat) : Nat → Nat → BackfillStats → Except String BackfillStats
  | 0, _, _ => .error backfillIncompleteMsg
  | fuel + 1, pos, st =>
    let page := getSkillBackfillPageCore s0 pos bs
    let st1 := page.items.foldl (summaryItemStats deriveS deriveP blobs) st
    if page.isDone then .ok st1
    else summaryStatsBatches deriveS deriveP blobs s0 bs fuel (pos + bs) st1

/-- The counter updates of the fingerprint loop body, which read nothing from
the store. -/
def fpItemStats (hashFiles : List (String × String) → String)
    (st : FingerprintBackfillStats) (item : FingerprintBackfillPageItem) :
    FingerprintBackfillStats :=
  let fingerprint := hashFiles item.files
  let existingFps := (item.existingEntries.map (fun e => e.2)).dedup
  let hasAnyEntry : Bool := item.existingEntries.length > 0
  let entryIsCorrect : Bool :=
    hasAnyEntry && existingFps.length == 1 && existingFps.contains fingerprint
  let versionFingerprintIsCorrect : Bool := item.versionFingerprint == some fingerprint
  let st := { st with versionsScanned := st.versionsScanned + 1 }
  let st := if hasAnyEntry && !entryIsCorrect then
    { st with fingerprintMismatches := st.fingerprintMismatches + 1 } else st
  if !(!versionFingerprintIsCorrect) && !(!entryIsCorrect) then st
  else
    let st := if !versionFingerprintIsCorrect then
      { st with versionsPatched := st.versionsPatched + 1 } else st
    if !entryIsCorrect then
      { st with fingerprintsInserted := st.fingerprintsInserted + 1 } else st

/-- The fingerprint batch loop with the mutations erased. -/
def fpStatsBatches (hashFiles : List (String × String) → String)
    (s0 : Store) (bs : Nat) :
    Nat → Nat → FingerprintBackfillStats → Except String FingerprintBackfillStats
  | 0, _, _ => .error backfillIncompleteMsg
  | fuel + 1, pos, st =>
    let page := getSkillFingerprintBackfillPageCore s0 pos bs
    let st1 := page.items.foldl (fpItemStats hashFiles) st
    if page.isDone then .ok st1
    else fpStatsBatches hashFiles s0 bs fuel (pos + bs) st1

/-- The store effect of the summary loop body for one item (identity in
dry-run mode and for items needing no patch). -/
def summaryItemApply (deriveS : String → Option String)
    (deriveP : String → Option ParsedSkillData) (blobs : List (Nat × String))
    (dryRun : Bool) (item : BackfillPageItem) (s : Store) : Store :=
  match item with
  | .ok skillId versionId skillSummary versionParsed readmeStorageId =>
    match lookupBlob blobs readmeStorageId with
    | none => s
    | some readmeText =>
      let patch := buildSkillSummaryBackfillPatch deriveS deriveP readmeText
        skillSummary versionParsed
      if !jsTruthyStr patch.summary && patch.parsed == none then s
      else if dryRun then s
      else applySkillBackfillPatch s skillId versionId patch.summary patch.parsed
  | _ => s

/-- The store effect of the fingerprint loop body for one item. -/
def fpItemApply (hashFiles : List (String × String) → String) (dryRun : Bool)
    (item : FingerprintBackfillPageItem) (s : Store) : Store :=
  let sp := (fpItemDecision hashFiles item).1
  let sr := (fpItemDecision hashFiles item).2
  if !sp && !sr then s
  else if dryRun then s
  else
    (applySkillFingerprintBackfillPatch s item.versionId (hashFiles item.files) sp sr
      (if sr then item.existingEntries.map (fun e => e.1) else [])).2

/-- The state of one version visible to the fingerprint job: its document
and its fingerprint entries. -/
def fpLocalState (s : Store) (vid : Nat) : Option SkillVersion × List FingerprintEntry :=
  (findVersion s vid, entriesFor s vid)

/-- db.get on the skills table. -/
def findSkill (s : Store) (sid : Nat) : Option Skill :=
  s.skills.find? (fun sk => sk.docId == sid)

/-- The entry ids the orchestrator hands to the applier for one version: the
ids of the up-to-20 fetched entries. -/
def fpListedIds (s0 : Store) (vid : Nat) : List Nat :=
  (fetchedEntries s0 vid).map (fun e => e.docId)

/-- The version document after one fingerprint pass processed it, relative
to the fetch-time store s0. -/
def fpOutcomeDoc (hashFiles : List (String × String) → String) (s0 : Store)
    (v : SkillVersion) : SkillVersion :=
  if (fpItemDecision hashFiles (mkFpItem s0 v)).1 then
    { v with fingerprint := some (hashOfVersion hashFiles v) }
  else v

/-- The fingerprint entries of a version after one pass processed it,
relative to the fetch-time store s0; nid is the id the insert allocated. -/
def fpOutcomeEntries (hashFiles : List (String × String) → String) (s0 : Store)
    (v : SkillVersion) (nid : Nat) : List FingerprintEntry :=
  if (fpItemDecision hashFiles (mkFpItem s0 v)).2 then
    (entriesFor s0 v.docId).filter
        (fun e => !((fpListedIds s0 v.docId).contains e.docId)) ++
      [{ docId := nid, skillId := v.skillId, versionId := v.docId,
         fingerprint := hashOfVersion hashFiles v, createdAt := s0.now }]
  else entriesFor s0 v.docId

/-- The local state of one version after a completed non-dry fingerprint
pass over store s0: unchanged when the fetcher skips it, otherwise patched
and/or replaced according to the orchestrator decisions. -/
def fpFinalLocal (hashFiles : List (String × String) → String) (s0 : Store)
    (v : SkillVersion) (nid : Nat) : Option SkillVersion × List FingerprintEntry :=
  if fpEmitCond s0 v then
    (some (fpOutcomeDoc hashFiles s0 v), fpOutcomeEntries hashFiles s0 v nid)
  else (some v, entriesFor s0 v.docId)

/-- The patch the summary orchestrator computes for one skill relative to
the fetch-time store s0 (none when the item is skipped for any reason). -/
def summaryPatchFor (deriveS : String → Option String)
    (deriveP : String → Option ParsedSkillData) (blobs : List (Nat × String))
    (s0 : Store) (sk : Skill) : Option SummaryPatch :=
  match classifySkill s0 sk with
  | .ok _ _ cursum curpar sid =>
    match lookupBlob blobs sid with
    | some txt =>
      let p := buildSkillSummaryBackfillPatch deriveS deriveP txt cursum curpar
      if !jsTruthyStr p.summary && p.parsed == none then none else some p
    | none => none
  | _ => none

/-- The skill document after one summary pass processed it. -/
def summarySkillOutcome (deriveS : String → Option String)
    (deriveP : String → Option ParsedSkillData) (blobs : List (Nat × String))
    (s0 : Store) (sk : Skill) : Skill :=
  match summaryPatchFor deriveS deriveP blobs s0 sk with
  | some p =>
    match p.summary with
    | some str => { sk with summary := some str, updatedAt := s0.now }
    | none => sk
  | none => sk

/-- The referenced version document after one summary pass processed the
skill referencing it. -/
def summaryVersionOutcome (deriveS : String → Option String)
    (deriveP : String → Option ParsedSkillData) (blobs : List (Nat × String))
    (s0 : Store) (sk : Skill) (v : SkillVersion) : SkillVersion :=
  match summaryPatchFor deriveS deriveP blobs s0 sk with
  | some p =>
    match p.parsed with
    | some par => { v with parsed := par }
    | none => v
  | none => v

/-- Invariant relating a mid-run store of the fingerprint job to the store
the run started from: skills untouched, version ids positionally unchanged,
the clock unchanged, every entry either descends from an initial entry (same
id, same version) or is freshly inserted, ids stay unique and fresh. -/
structure FpInv (s0 s : Store) : Prop where
  skillsEq : s.skills = s0.skills
  verIds : s.versions.map (fun v => v.docId) = s0.versions.map (fun v => v.docId)
  nowEq : s.now = s0.now
  entrySound : ∀ e ∈ s.fpEntries,
    (∃ e0 ∈ s0.fpEntries, e0.docId = e.docId ∧ e0.versionId = e.versionId) ∨
      s0.nextId ≤ e.docId
  nextIdMono : s0.nextId ≤ s.nextId
  entriesNodup : (s.fpEntries.map (fun e => e.docId)).Nodup
  entriesFresh : ∀ e ∈ s.fpEntries, e.docId < s.nextId

/-- Invariant relating a mid-run store of the summary job to the store the
run started from: skill ids and latest-version references positionally
unchanged, version ids and files positionally unchanged, fingerprint
entries, clock and allocator untouched. -/
structure SumInv (s0 s : Store) : Prop where
  skillIds : s.skills.map (fun sk => sk.docId) = s0.skills.map (fun sk => sk.docId)
  refs : s.skills.map (fun sk => sk.latestVersionId) =
    s0.skills.map (fun sk => sk.latestVersionId)
  verIds : s.versions.map (fun v => v.docId) = s0.versions.map (fun v => v.docId)
  fpEq : s.fpEntries = s0.fpEntries
  nowEq : s.now = s0.now
  nextIdEq : s.nextId = s0.nextId

/-- The state of one skill visible to the summary job: its document and the
referenced latest version document, if any. -/
def sumLocalState (s : Store) (sk : Skill) : Option Skill × Option SkillVersion :=
  (findSkill s sk.docId,
   match sk.latestVersionId with
   | some vid => findVersion s vid
   | none => none)

/-- The local state of one skill after a completed non-dry summary pass over
store s0. -/
def sumFinalLocal (deriveS : String → Option String)
    (deriveP : String → Option ParsedSkillData) (blobs : List (Nat × String))
    (s0 : Store) (sk : Skill) : Option Skill × Option SkillVersion :=
  (some (summarySkillOutcome deriveS deriveP blobs s0 sk),
   match sk.latestVersionId with
   | some vid =>
     (findVersion s0 vid).map (summaryVersionOutcome deriveS deriveP blobs s0 sk)
   | none => none)

/-- A store all of whose skills are already at the derived state: for every
skill classified ok whose README blob exists, the computed patch passes the
skip test of the orchestrator. -/
def SummarySettled (deriveS : String → Option String)
    (deriveP : String → Option ParsedSkillData) (blobs : List (Nat × String))
    (s : Store) : Prop :=
  ∀ sk ∈ s.skills, ∀ (a vid : Nat) (cursum : Option String)
    (curpar : ParsedSkillData) (sid : Nat),
    classifySkill s sk = .ok a vid cursum curpar sid →
    ∀ txt, lookupBlob blobs sid = some txt →
      (!jsTruthyStr (buildSkillSummaryBackfillPatch deriveS deriveP txt cursum curpar).summary &&
        (buildSkillSummaryBackfillPatch deriveS deriveP txt cursum curpar).parsed == none) = true

/-! ## Helper lemmas -/

theorem jsTrunc_of_nonneg {q : ℚ} (h : 0 ≤ q) : jsTrunc q = ⌊q⌋ := by
  simp [jsTrunc, h]

theorem jsTrunc_of_neg {q : ℚ} (h : q < 0) : jsTrunc q = ⌈q⌉ := by
  simp [jsTrunc, not_le.mpr h]

theorem jsTrunc_abs_le (q : ℚ) : |(jsTrunc q : ℚ)| ≤ |q| := by
  rcases le_or_lt 0 q with h | h
  · rw [jsTrunc_of_nonneg h, abs_of_nonneg h,
      abs_of_nonneg (by exact_mod_cast Int.floor_nonneg.mpr h)]
    exact Int.floor_le q
  · rw [jsTrunc_of_neg h, abs_of_neg h,
      abs_of_nonpos (by exact_mod_cast Int.ceil_le.mpr (by exact_mod_cast h.le))]
    exact neg_le_neg (Int.le_ceil q)

theorem abs_lt_jsTrunc_abs_add_one (q : ℚ) : |q| < |(jsTrunc q : ℚ)| + 1 := by
  rcases le_or_lt 0 q with h | h
  · rw [jsTrunc_of_nonneg h, abs_of_nonneg h,
      abs_of_nonneg (by exact_mod_cast Int.floor_nonneg.mpr h)]
    exact Int.lt_floor_add_one q
  · rw [jsTrunc_of_neg h, abs_of_neg h,
      abs_of_nonpos (by exact_mod_cast Int.ceil_le.mpr (by exact_mod_cast h.le))]
    have := Int.ceil_lt_add_one q
    linarith

theorem jsTrunc_nonneg_of_nonneg {q : ℚ} (h : 0 ≤ q) : 0 ≤ jsTrunc q := by
  rw [jsTrunc_of_nonneg h]; exact Int.floor_nonneg.mpr h

theorem jsTrunc_nonpos_of_nonpos {q : ℚ} (h : q ≤ 0) : jsTrunc q ≤ 0 := by
  rcases lt_or_eq_of_le h with h' | h'
  · rw [jsTrunc_of_neg h']; exact Int.ceil_le.mpr (by exact_mod_cast h)
  · rw [h', jsTrunc_of_nonneg le_rfl]; simp

theorem clampInt_mem_range {x : JSNum} {lo hi : ℤ} (h : lo ≤ hi) :
    lo ≤ clampInt x lo hi ∧ clampInt x lo hi ≤ hi := by
  cases x <;> simp [clampInt, h, le_min_iff, le_max_iff]

theorem clampInt_default_bs : (clampInt defaultBatchSize 1 maxBatchSizeBound).toNat = 50 := by
  have : jsTrunc 50 = 50 := by rw [jsTrunc_of_nonneg (by norm_num)]; norm_num
  simp [clampInt, defaultBatchSize, maxBatchSizeBound, this]

theorem clampInt_default_mb : (clampInt defaultMaxBatches 1 maxMaxBatchesBound).toNat = 20 := by
  have : jsTrunc 20 = 20 := by rw [jsTrunc_of_nonneg (by norm_num)]; norm_num
  simp [clampInt, defaultMaxBatches, maxMaxBatchesBound, this]

theorem toLower_skill_md : "skill.md".toLower = "skill.md" := by
  simp only [String.toLower, String.map_eq]
  decide

theorem toLower_skills_md : "skills.md".toLower = "skills.md" := by
  simp only [String.toLower, String.map_eq]
  decide

theorem findReadmeFile_eq_spec (files : List SkillFile) :
    findReadmeFile files = files.find? (fun f =>
      caseInsensitiveEqStr f.path "skill.md" || caseInsensitiveEqStr f.path "skills.md") := by
  unfold findReadmeFile
  congr 1
  funext f
  simp [caseInsensitiveEqStr, toLower_skill_md, toLower_skills_md]

theorem classifySkill_eq_spec (s : Store) (skill : Skill) :
    classifySkill s skill = specClassifySkill s skill := by
  unfold classifySkill specClassifySkill
  simp only [findReadmeFile_eq_spec]

/-! ## Claim theorems -/

/-- C9: for bounds min ≤ max, clampInt always lands in [min, max]; every
non-finite input maps to min; a finite input is truncated toward zero (the
truncation t satisfies |t| ≤ |x| < |t| + 1 and keeps the sign of x) before
clamping; and clampInt(500,1,200) = 200, clampInt(0.9,1,200) = 1,
clampInt(NaN,1,200) = 1. -/
theorem clampInt_meets_spec (x : JSNum) (lo hi : ℤ) (h : lo ≤ hi) :
    (lo ≤ clampInt x lo hi ∧ clampInt x lo hi ≤ hi) ∧
    (clampInt JSNum.nan lo hi = lo ∧ clampInt JSNum.posInf lo hi = lo ∧
      clampInt JSNum.negInf lo hi = lo) ∧
    (∀ q : ℚ, clampInt (JSNum.fin q) lo hi = min hi (max lo (jsTrunc q)) ∧
      |(jsTrunc q : ℚ)| ≤ |q| ∧ |q| < |(jsTrunc q : ℚ)| + 1 ∧
      (0 ≤ q → 0 ≤ jsTrunc q) ∧ (q ≤ 0 → jsTrunc q ≤ 0)) ∧
    clampInt (JSNum.fin 500) 1 200 = 200 ∧
    clampInt (JSNum.fin (9/10)) 1 200 = 1 ∧
    clampInt JSNum.nan 1 200 = 1 := by
  refine ⟨clampInt_mem_range h, ⟨rfl, rfl, rfl⟩, ?_, ?_, ?_, rfl⟩
  · intro q
    exact ⟨rfl, jsTrunc_abs_le q, abs_lt_jsTrunc_abs_add_one q,
      fun hq => jsTrunc_nonneg_of_nonneg hq, fun hq => jsTrunc_nonpos_of_nonpos hq⟩
  · have : jsTrunc 500 = 500 := by rw [jsTrunc_of_nonneg (by norm_num)]; norm_num
    simp [clampInt, this]
  · have : jsTrunc (9/10) = 0 := by rw [jsTrunc_of_nonneg (by norm_num)]; norm_num
    simp [clampInt, this]

/-- Witness for C9 at a concrete negative non-integer input and bounds. -/
theorem clampInt_meets_spec_witness :
    (-10 : ℤ) ≤ clampInt (JSNum.fin (-5/2)) (-10) 10 ∧
      clampInt (JSNum.fin (-5/2)) (-10) 10 ≤ 10 :=
  (clampInt_meets_spec (JSNum.fin (-5/2)) (-10) 10 (by norm_num)).1

/-- C5: the summary-backfill page fetcher classifies every skill of the
fetched page exactly as the spec states (via specClassifySkill, written from
the claim wording), its items are the classifications of the fetched page,
and it performs no mutation. -/
theorem getSkillBackfillPage_meets_spec (s : Store) (cursor : Option Nat)
    (batchSize : Option JSNum) :
    (getSkillBackfillPage s cursor batchSize).2 = s ∧
    (getSkillBackfillPage s cursor batchSize).1.items =
      ((s.skills.drop (cursor.getD 0)).take
        ((clampInt (batchSize.getD defaultBatchSize) 1 maxBatchSizeBound).toNat)).map
        (specClassifySkill s) ∧
    ∀ skill : Skill, classifySkill s skill = specClassifySkill s skill := by
  refine ⟨rfl, ?_, fun skill => classifySkill_eq_spec s skill⟩
  show (getSkillBackfillPageCore s (cursor.getD 0) _).items = _
  unfold getSkillBackfillPageCore
  exact List.map_congr_left (fun skill _ => classifySkill_eq_spec s skill)

/-- C6: a missingVersionDoc item updates the statistics exactly like a
missingLatestVersion item (same counter); and for a store holding exactly one
skill whose latestVersionId is null, one completed backfill pass returns
skillsScanned = 1, missingLatestVersion = 1, skillsPatched = 0. -/
theorem missingVersionDoc_counted_as_missingLatestVersion :
    (∀ (dS : String → Option String) (dP : String → Option ParsedSkillData)
      (blobs : List (Nat × String)) (dry : Bool) (acc : BackfillStats × Store)
      (a b c : Nat),
      summaryProcessItem dS dP blobs dry acc (BackfillPageItem.missingVersionDoc a b) =
        summaryProcessItem dS dP blobs dry acc (BackfillPageItem.missingLatestVersion c)) ∧
    (∀ (dS : String → Option String) (dP : String → Option ParsedSkillData)
      (blobs : List (Nat × String)),
      backfillSkillSummariesHandler dS dP blobs ⟨none, none, none⟩
          { skills := [{ docId := 1, latestVersionId := none, summary := none, updatedAt := 0 }],
            versions := [], fpEntries := [], now := 0, nextId := 2 } =
        .ok ({ BackfillStats.init with skillsScanned := 1, missingLatestVersion := 1 },
          { skills := [{ docId := 1, latestVersionId := none, summary := none, updatedAt := 0 }],
            versions := [], fpEntries := [], now := 0, nextId := 2 })) := by
  constructor
  · intro dS dP blobs dry acc a b c
    rfl
  · intro dS dP blobs
    unfold backfillSkillSummariesHandler
    simp only [Option.getD_none, clampInt_default_bs, clampInt_default_mb]
    rfl

theorem fpEmitCond_eq_amended (s : Store) (v : SkillVersion) :
    fpEmitCond s v = specFpEmitAmended s v := by
  unfold fpEmitCond specFpEmitAmended specFpEmitClaim
  cases hf : v.fingerprint with
  | none => simp
  | some f =>
    cases hfe : fetchedEntries s v.docId with
    | nil => simp
    | cons e rest =>
      simp only [List.isEmpty_cons, List.length_cons]
      by_cases ha : (f == "") = true <;>
        by_cases hx : (((e :: rest).map (fun e => e.fingerprint)).dedup.length ≠ 1 ∨
          ¬ ((e :: rest).map (fun e => e.fingerprint)).dedup.contains f) <;>
      simp_all [Bool.or_assoc]

/-- C7 counterexample: the claim as stated is false.  A version whose stored
fingerprint field is the empty string, with a single entry equal to it, is
emitted as a work item by the page fetcher (the source tests JS truthiness,
so an empty-string field counts as needing the field), while the claim
condition (field absent / no entries / mismatch) does not hold for it. -/
theorem fp_fetcher_claim_counterexample :
    (getSkillFingerprintBackfillPage
        ⟨[], [⟨1, 1, [], ⟨[], none, none⟩, some ""⟩], [⟨10, 1, 1, "", 0⟩], 0, 11⟩
        none none).1.items.length = 1 ∧
      specFpEmitClaim
        ⟨[], [⟨1, 1, [], ⟨[], none, none⟩, some ""⟩], [⟨10, 1, 1, "", 0⟩], 0, 11⟩
        ⟨1, 1, [], ⟨[], none, none⟩, some ""⟩ = false := by
  constructor
  · unfold getSkillFingerprintBackfillPage
    simp only [Option.getD_none, clampInt_default_bs]
    rfl
  · rfl

/-- C7 (amended): the fingerprint page fetcher emits a version of the
fetched page as a work item if and only if its stored fingerprint field is
absent or empty, it has no fingerprint entries, or it has a stored
fingerprint and entries exist and either the entries disagree among
themselves or none of them equals the stored fingerprint; all other versions
are skipped.  (Amendment: the source tests JS truthiness of the stored
field, so an empty-string field counts as absent.) -/
theorem fp_fetcher_emits_iff_amended (s : Store) (cursor : Option Nat)
    (batchSize : Option JSNum) :
    (getSkillFingerprintBackfillPage s cursor batchSize).2 = s ∧
    (getSkillFingerprintBackfillPage s cursor batchSize).1.items =
      (((s.versions.drop (cursor.getD 0)).take
        ((clampInt (batchSize.getD defaultBatchSize) 1 maxBatchSizeBound).toNat)).filter
        (specFpEmitAmended s)).map (mkFpItem s) ∧
    ∀ v : SkillVersion, fpEmitCond s v = specFpEmitAmended s v := by
  refine ⟨rfl, ?_, fun v => fpEmitCond_eq_amended s v⟩
  show ((((s.versions.drop (cursor.getD 0)).take
      ((clampInt (batchSize.getD defaultBatchSize) 1 maxBatchSizeBound).toNat)).filter
      (fpEmitCond s)).map (mkFpItem s)) = _
  rw [List.filter_congr (fun v _ => fpEmitCond_eq_amended s v)]

theorem deleteFold_fpEntries (ids : List Nat) (s : Store) :
    ids.foldl (fun (acc : Store) id =>
      { acc with fpEntries := acc.fpEntries.filter (fun e => e.docId != id) }) s =
    { s with fpEntries := s.fpEntries.filter (fun e => !(ids.contains e.docId)) } := by
  induction ids generalizing s with
  | nil => simp
  | cons id rest ih =>
    rw [List.foldl_cons, ih]
    congr 1
    rw [List.filter_filter]
    apply List.filter_congr
    intro e _
    simp only [List.contains_cons]
    cases hbe : (e.docId == id) <;> simp_all

theorem fpProcessItem_factor (h : List (String × String) → String) (dry : Bool)
    (acc : FingerprintBackfillStats × Store) (item : FingerprintBackfillPageItem) :
    fpProcessItem h dry acc item = (fpItemStats h acc.1 item, fpItemApply h dry item acc.2) := by
  unfold fpProcessItem fpItemStats fpItemApply fpItemDecision
  dsimp only
  repeat' split
  all_goals rfl

/-- C8: the fingerprint patch applier returns the structured missingVersion
failure and leaves the store unchanged when the target version does not
exist; this failure does not abort the batch, since the loop body is the
pair of a counter update computed without the applier result and the store
component of the applier call (the ok/failure flag is discarded); and when
the version exists and replaceEntries is set, the applier deletes every
listed existing entry id and then inserts exactly one new entry carrying the
computed fingerprint and the current timestamp. -/
theorem fpApplier_meets_spec :
    (∀ (s : Store) (vid : Nat) (fp : String) (pv re : Bool) (ids : List Nat),
      findVersion s vid = none →
        applySkillFingerprintBackfillPatch s vid fp pv re ids =
          (FpApplyResult.missingVersion, s)) ∧
    (∀ (h : List (String × String) → String) (dry : Bool)
      (acc : FingerprintBackfillStats × Store) (item : FingerprintBackfillPageItem),
      fpProcessItem h dry acc item =
        (fpItemStats h acc.1 item, fpItemApply h dry item acc.2)) ∧
    (∀ (s : Store) (vid : Nat) (fp : String) (pv : Bool) (ids : List Nat)
      (v : SkillVersion), findVersion s vid = some v →
        (applySkillFingerprintBackfillPatch s vid fp pv true ids).1 = FpApplyResult.ok ∧
        (applySkillFingerprintBackfillPatch s vid fp pv true ids).2.fpEntries =
          s.fpEntries.filter (fun e => !(ids.contains e.docId)) ++
            [⟨s.nextId, v.skillId, v.docId, fp, s.now⟩] ∧
        (applySkillFingerprintBackfillPatch s vid fp pv true ids).2.nextId = s.nextId + 1) := by
  refine ⟨?_, fpProcessItem_factor, ?_⟩
  · intro s vid fp pv re ids hnone
    unfold applySkillFingerprintBackfillPatch
    rw [hnone]
  · intro s vid fp pv ids v hv
    unfold applySkillFingerprintBackfillPatch
    rw [hv]
    cases pv <;> simp [deleteFold_fpEntries]

/-- Witness for C8 at concrete inputs: a missing version on an empty store,
and a replacement on a one-version store. -/
theorem fpApplier_meets_spec_witness :
    applySkillFingerprintBackfillPatch ⟨[], [], [], 0, 0⟩ 5 "h" true true [] =
      (FpApplyResult.missingVersion, ⟨[], [], [], 0, 0⟩) ∧
    (applySkillFingerprintBackfillPatch
        ⟨[], [⟨1, 2, [], ⟨[], none, none⟩, none⟩], [⟨10, 2, 1, "x", 0⟩], 7, 11⟩
        1 "h" true true [10]).2.fpEntries = [⟨11, 2, 1, "h", 7⟩] := by
  constructor
  · exact fpApplier_meets_spec.1 ⟨[], [], [], 0, 0⟩ 5 "h" true true [] rfl
  · rw [(fpApplier_meets_spec.2.2
      ⟨[], [⟨1, 2, [], ⟨[], none, none⟩, none⟩], [⟨10, 2, 1, "x", 0⟩], 7, 11⟩
      1 "h" true [10] ⟨1, 2, [], ⟨[], none, none⟩, none⟩ rfl).2.1]
    rfl

theorem foldl_pair_factor {α β γ : Type} (f : α → γ → α) (g : γ → β → β)
    (l : List γ) (a : α) (b : β) :
    l.foldl (fun acc item => (f acc.1 item, g item acc.2)) (a, b) =
      (l.foldl f a, l.foldl (fun s item => g item s) b) := by
  induction l generalizing a b with
  | nil => rfl
  | cons x xs ih => exact ih (f a x) (g x b)

theorem foldl_preserves {β γ : Type} {δ : Type} (f : β → γ → β) (P : β → δ)
    (hf : ∀ b c, P (f b c) = P b) (l : List γ) (b : β) :
    P (l.foldl f b) = P b := by
  induction l generalizing b with
  | nil => rfl
  | cons x xs ih => rw [List.foldl_cons, ih, hf]

theorem summaryProcessItem_factor (dS : String → Option String)
    (dP : String → Option ParsedSkillData) (blobs : List (Nat × String)) (dry : Bool)
    (acc : BackfillStats × Store) (item : BackfillPageItem) :
    summaryProcessItem dS dP blobs dry acc item =
      (summaryItemStats dS dP blobs acc.1 item, summaryItemApply dS dP blobs dry item acc.2) := by
  unfold summaryProcessItem summaryItemStats summaryItemApply
  cases item with
  | missingLatestVersion a => rfl
  | missingVersionDoc a b => rfl
  | missingReadme a b => rfl
  | ok a b c d e =>
    dsimp only
    cases hb : lookupBlob blobs e with
    | none => rfl
    | some t =>
      dsimp only
      repeat' split
      all_goals rfl

theorem summaryBatchFold_factor (dS : String → Option String)
    (dP : String → Option ParsedSkillData) (blobs : List (Nat × String)) (dry : Bool)
    (items : List BackfillPageItem) (st : BackfillStats) (s : Store) :
    items.foldl (summaryProcessItem dS dP blobs dry) (st, s) =
      (items.foldl (summaryItemStats dS dP blobs) st,
        items.foldl (fun s2 item => summaryItemApply dS dP blobs dry item s2) s) := by
  rw [show summaryProcessItem dS dP blobs dry = (fun acc item =>
      (summaryItemStats dS dP blobs acc.1 item, summaryItemApply dS dP blobs dry item acc.2))
    from funext fun acc => funext fun item => summaryProcessItem_factor dS dP blobs dry acc item]
  exact foldl_pair_factor _ _ items st s

theorem fpBatchFold_factor (h : List (String × String) → String) (dry : Bool)
    (items : List FingerprintBackfillPageItem) (st : FingerprintBackfillStats) (s : Store) :
    items.foldl (fpProcessItem h dry) (st, s) =
      (items.foldl (fpItemStats h) st,
        items.foldl (fun s2 item => fpItemApply h dry item s2) s) := by
  rw [show fpProcessItem h dry = (fun acc item =>
      (fpItemStats h acc.1 item, fpItemApply h dry item acc.2))
    from funext fun acc => funext fun item => fpProcessItem_factor h dry acc item]
  exact foldl_pair_factor _ _ items st s

theorem applySkillBackfillPatch_shape (s : Store) (a b : Nat)
    (su : Option String) (pa : Option ParsedSkillData) :
    (applySkillBackfillPatch s a b su pa).skills.length = s.skills.length ∧
    (applySkillBackfillPatch s a b su pa).versions.length = s.versions.length ∧
    (applySkillBackfillPatch s a b su pa).fpEntries = s.fpEntries ∧
    (applySkillBackfillPatch s a b su pa).now = s.now ∧
    (applySkillBackfillPatch s a b su pa).nextId = s.nextId := by
  unfold applySkillBackfillPatch
  cases su <;> cases pa <;> simp

theorem summaryItemApply_shape (dS : String → Option String)
    (dP : String → Option ParsedSkillData) (blobs : List (Nat × String)) (dry : Bool)
    (item : BackfillPageItem) (s : Store) :
    (summaryItemApply dS dP blobs dry item s).skills.length = s.skills.length ∧
    (summaryItemApply dS dP blobs dry item s).versions.length = s.versions.length := by
  unfold summaryItemApply
  cases item with
  | missingLatestVersion a => exact ⟨rfl, rfl⟩
  | missingVersionDoc a b => exact ⟨rfl, rfl⟩
  | missingReadme a b => exact ⟨rfl, rfl⟩
  | ok a b c d e =>
    dsimp only
    cases hb : lookupBlob blobs e with
    | none => exact ⟨rfl, rfl⟩
    | some t =>
      dsimp only
      repeat' split
      all_goals
        first
        | exact ⟨rfl, rfl⟩
        | exact ⟨(applySkillBackfillPatch_shape _ _ _ _ _).1,
            (applySkillBackfillPatch_shape _ _ _ _ _).2.1⟩

theorem fpApplyPatch_versions_length (s : Store) (vid : Nat) (fp : String)
    (pv re : Bool) (ids : List Nat) :
    (applySkillFingerprintBackfillPatch s vid fp pv re ids).2.versions.length =
      s.versions.length := by
  unfold applySkillFingerprintBackfillPatch
  repeat' split
  all_goals simp [deleteFold_fpEntries]

theorem fpItemApply_versions_length (h : List (String × String) → String) (dry : Bool)
    (item : FingerprintBackfillPageItem) (s : Store) :
    (fpItemApply h dry item s).versions.length = s.versions.length := by
  unfold fpItemApply
  dsimp only
  split
  · rfl
  · split
    · rfl
    · exact fpApplyPatch_versions_length _ _ _ _ _ _

theorem summaryFold_skills_length (dS : String → Option String)
    (dP : String → Option ParsedSkillData) (blobs : List (Nat × String)) (dry : Bool)
    (items : List BackfillPageItem) (s : Store) :
    (items.foldl (fun s2 item => summaryItemApply dS dP blobs dry item s2) s).skills.length =
      s.skills.length :=
  foldl_preserves _ (fun s2 => s2.skills.length)
    (fun b c => (summaryItemApply_shape dS dP blobs dry c b).1) items s

theorem fpFold_versions_length (h : List (String × String) → String) (dry : Bool)
    (items : List FingerprintBackfillPageItem) (s : Store) :
    (items.foldl (fun s2 item => fpItemApply h dry item s2) s).versions.length =
      s.versions.length :=
  foldl_preserves _ (fun s2 => s2.versions.length)
    (fun b c => fpItemApply_versions_length h dry c b) items s

theorem summaryRunBatches_ok (dS : String → Option String)
    (dP : String → Option ParsedSkillData) (blobs : List (Nat × String)) (dry : Bool)
    (bs : Nat) :
    ∀ (fuel pos : Nat) (acc : BackfillStats × Store), 1 ≤ fuel →
      acc.2.skills.length ≤ pos + bs * fuel →
      ∃ out, summaryRunBatches dS dP blobs dry bs fuel pos acc = .ok out := by
  intro fuel
  induction fuel with
  | zero => intro pos acc h; omega
  | succ n ih =>
    intro pos acc _ hlen
    obtain ⟨st, s⟩ := acc
    dsimp only at hlen
    simp only [summaryRunBatches, summaryBatchFold_factor]
    by_cases hd : s.skills.length ≤ pos + bs
    · simp [getSkillBackfillPageCore, hd]
    · have hd' : (getSkillBackfillPageCore s pos bs).isDone = false := by
        simp [getSkillBackfillPageCore, hd]
      rw [hd']
      simp only [Bool.false_eq_true, if_false]
      apply ih (pos + bs)
      · rcases Nat.eq_zero_or_pos n with hn | hn
        · subst hn; rw [Nat.mul_succ] at hlen; omega
        · omega
      · show (_ : Store).skills.length ≤ _
        rw [summaryFold_skills_length]
        rw [Nat.mul_succ] at hlen
        omega

theorem summaryRunBatches_error (dS : String → Option String)
    (dP : String → Option ParsedSkillData) (blobs : List (Nat × String)) (dry : Bool)
    (bs : Nat) :
    ∀ (fuel pos : Nat) (acc : BackfillStats × Store),
      pos + bs * fuel < acc.2.skills.length →
      summaryRunBatches dS dP blobs dry bs fuel pos acc = .error backfillIncompleteMsg := by
  intro fuel
  induction fuel with
  | zero => intro pos acc _; rfl
  | succ n ih =>
    intro pos acc hlen
    obtain ⟨st, s⟩ := acc
    dsimp only at hlen
    rw [Nat.mul_succ] at hlen
    simp only [summaryRunBatches, summaryBatchFold_factor]
    have hd' : (getSkillBackfillPageCore s pos bs).isDone = false := by
      simp only [getSkillBackfillPageCore, decide_eq_false_iff_not]
      omega
    rw [hd']
    simp only [Bool.false_eq_true, if_false]
    apply ih (pos + bs)
    show _ < (_ : Store).skills.length
    rw [summaryFold_skills_length]
    omega

theorem fpRunBatches_ok (h : List (String × String) → String) (dry : Bool) (bs : Nat) :
    ∀ (fuel pos : Nat) (acc : FingerprintBackfillStats × Store), 1 ≤ fuel →
      acc.2.versions.length ≤ pos + bs * fuel →
      ∃ out, fpRunBatches h dry bs fuel pos acc = .ok out := by
  intro fuel
  induction fuel with
  | zero => intro pos acc hf; omega
  | succ n ih =>
    intro pos acc _ hlen
    obtain ⟨st, s⟩ := acc
    dsimp only at hlen
    simp only [fpRunBatches, fpBatchFold_factor]
    by_cases hd : s.versions.length ≤ pos + bs
    · simp [getSkillFingerprintBackfillPageCore, hd]
    · have hd' : (getSkillFingerprintBackfillPageCore s pos bs).isDone = false := by
        simp [getSkillFingerprintBackfillPageCore, hd]
      rw [hd']
      simp only [Bool.false_eq_true, if_false]
      apply ih (pos + bs)
      · rcases Nat.eq_zero_or_pos n with hn | hn
        · subst hn; rw [Nat.mul_succ] at hlen; omega
        · omega
      · show (_ : Store).versions.length ≤ _
        rw [fpFold_versions_length]
        rw [Nat.mul_succ] at hlen
        omega

theorem fpRunBatches_error (h : List (String × String) → String) (dry : Bool) (bs : Nat) :
    ∀ (fuel pos : Nat) (acc : FingerprintBackfillStats × Store),
      pos + bs * fuel < acc.2.versions.length →
      fpRunBatches h dry bs fuel pos acc = .error backfillIncompleteMsg := by
  intro fuel
  induction fuel with
  | zero => intro pos acc _; rfl
  | succ n ih =>
    intro pos acc hlen
    obtain ⟨st, s⟩ := acc
    dsimp only at hlen
    rw [Nat.mul_succ] at hlen
    simp only [fpRunBatches, fpBatchFold_factor]
    have hd' : (getSkillFingerprintBackfillPageCore s pos bs).isDone = false := by
      simp only [getSkillFingerprintBackfillPageCore, decide_eq_false_iff_not]
      omega
    rw [hd']
    simp only [Bool.false_eq_true, if_false]
    apply ih (pos + bs)
    show _ < (_ : Store).versions.length
    rw [fpFold_versions_length]
    omega

theorem clampInt_one_le (x : JSNum) (hi : ℤ) (hhi : 1 ≤ hi) :
    1 ≤ (clampInt x 1 hi).toNat := by
  have := (clampInt_mem_range (x := x) hhi).1
  omega

/-- C2: for either backfill orchestrator, with bs and mb the clamped batch
size and batch bound: whenever the table being scanned has at most bs * mb
records the paginated scan reaches isDone within mb page fetches and the run
returns ok with stats; otherwise the run raises the error "Backfill
incomplete (maxBatches reached)" and returns no stats.  (In the positional
pagination model the scan reaches isDone within mb fetches exactly when the
record count is at most bs * mb, since each fetch advances the cursor by
bs.) -/
theorem backfill_completion_contract (dS : String → Option String)
    (dP : String → Option ParsedSkillData) (blobs : List (Nat × String))
    (h : List (String × String) → String) (args : BackfillActionArgs) (s : Store)
    (bs mb : Nat)
    (hbs : bs = (clampInt (args.batchSize.getD defaultBatchSize) 1 maxBatchSizeBound).toNat)
    (hmb : mb = (clampInt (args.maxBatches.getD defaultMaxBatches) 1 maxMaxBatchesBound).toNat) :
    (s.skills.length ≤ bs * mb →
      ∃ out, backfillSkillSummariesHandler dS dP blobs args s = .ok out) ∧
    (bs * mb < s.skills.length →
      backfillSkillSummariesHandler dS dP blobs args s = .error backfillIncompleteMsg) ∧
    (s.versions.length ≤ bs * mb →
      ∃ out, backfillSkillFingerprintsHandler h args s = .ok out) ∧
    (bs * mb < s.versions.length →
      backfillSkillFingerprintsHandler h args s = .error backfillIncompleteMsg) := by
  have hmb1 : 1 ≤ mb := by
    rw [hmb]; exact clampInt_one_le _ _ (by norm_num [maxMaxBatchesBound])
  refine ⟨?_, ?_, ?_, ?_⟩
  · intro hle
    unfold backfillSkillSummariesHandler
    rw [← hbs, ← hmb]
    exact summaryRunBatches_ok dS dP blobs _ bs mb 0 (BackfillStats.init, s) hmb1
      (by simpa using hle)
  · intro hgt
    unfold backfillSkillSummariesHandler
    rw [← hbs, ← hmb]
    exact summaryRunBatches_error dS dP blobs _ bs mb 0 (BackfillStats.init, s)
      (by simpa using hgt)
  · intro hle
    unfold backfillSkillFingerprintsHandler
    rw [← hbs, ← hmb]
    exact fpRunBatches_ok h _ bs mb 0 (FingerprintBackfillStats.init, s) hmb1
      (by simpa using hle)
  · intro hgt
    unfold backfillSkillFingerprintsHandler
    rw [← hbs, ← hmb]
    exact fpRunBatches_error h _ bs mb 0 (FingerprintBackfillStats.init, s)
      (by simpa using hgt)

/-- Witness for C2: a two-skill store completes under the default clamps. -/
theorem backfill_completion_contract_witness :
    ∃ out, backfillSkillSummariesHandler (fun _ => none) (fun _ => none) []
      ⟨none, none, none⟩
      ⟨[⟨1, none, none, 0⟩, ⟨2, none, none, 0⟩], [], [], 0, 3⟩ = .ok out :=
  (backfill_completion_contract (fun _ => none) (fun _ => none) [] (fun _ => "")
      ⟨none, none, none⟩ ⟨[⟨1, none, none, 0⟩, ⟨2, none, none, 0⟩], [], [], 0, 3⟩
      50 20 clampInt_default_bs.symm clampInt_default_mb.symm).1 (by norm_num)

theorem find?_map_key {α : Type} (key : α → Nat) (f : α → α)
    (hf : ∀ a, key (f a) = key a) (w : Nat) (l : List α) :
    (l.map f).find? (fun a => key a == w) = (l.find? (fun a => key a == w)).map f := by
  induction l with
  | nil => rfl
  | cons x xs ih =>
    simp only [List.map_cons, List.find?_cons, hf]
    cases hx : (key x == w) <;> simp [ih]

theorem find?_map_patch_ne {α : Type} (key : α → Nat) (g : α → α)
    (hg : ∀ a, key (g a) = key a) (target w : Nat) (hw : w ≠ target) (l : List α) :
    (l.map (fun a => if key a == target then g a else a)).find?
        (fun a => key a == w) =
      l.find? (fun a => key a == w) := by
  rw [find?_map_key key _ (fun a => by by_cases h : (key a == target) = true <;> simp [h, hg])]
  cases hfind : l.find? (fun a => key a == w) with
  | none => rfl
  | some u =>
    have hu := List.find?_some hfind
    have hku : key u = w := by simpa using hu
    simp [hku, hw]

theorem find?_key_of_mem {α : Type} (key : α → Nat) {l : List α}
    (hnd : (l.map key).Nodup) {a : α} (ha : a ∈ l) :
    l.find? (fun x => key x == key a) = some a := by
  induction l with
  | nil => cases ha
  | cons x xs ih =>
    rcases List.mem_cons.mp ha with rfl | hmem
    · simp [List.find?_cons]
    · have hnd' := hnd
      simp only [List.map_cons, List.nodup_cons] at hnd'
      have hne : key x ≠ key a := by
        intro hcon
        exact hnd'.1 (hcon ▸ List.mem_map_of_mem key hmem)
      have hfalse : (key x == key a) = false := by simp [hne]
      rw [List.find?_cons, hfalse]
      exact ih hnd'.2 hmem

theorem map_patch_drop {α : Type} (f : α → α) (l : List α) (d : Nat)
    (hid : ∀ a ∈ l.drop d, f a = a) : (l.map f).drop d = l.drop d := by
  rw [← List.map_drop]
  calc (l.drop d).map f = (l.drop d).map id := List.map_congr_left hid
    _ = l.drop d := List.map_id _

theorem fpInv_refl (s : Store) (h : WFStore s) : FpInv s s :=
  ⟨rfl, rfl, rfl, fun e he => .inl ⟨e, he, rfl, rfl⟩, le_rfl, h.entriesNodup, h.entriesFresh⟩

theorem fpInv_trans {s0 s1 s2 : Store} (h01 : FpInv s0 s1) (h12 : FpInv s1 s2) :
    FpInv s0 s2 := by
  refine ⟨h12.skillsEq.trans h01.skillsEq, h12.verIds.trans h01.verIds,
    h12.nowEq.trans h01.nowEq, ?_, h01.nextIdMono.trans h12.nextIdMono,
    h12.entriesNodup, h12.entriesFresh⟩
  intro e he
  rcases h12.entrySound e he with ⟨e1, he1, hid, hvid⟩ | hfr
  · rcases h01.entrySound e1 he1 with ⟨e0, he0, hid0, hvid0⟩ | hfr0
    · exact .inl ⟨e0, he0, hid0.trans hid, hvid0.trans hvid⟩
    · exact .inr (hid ▸ hfr0)
  · exact .inr (le_trans h01.nextIdMono hfr)

theorem fpApplyPatch_spec (s : Store) (vid : Nat) (fp : String) (pv re : Bool)
    (ids : List Nat) (version : SkillVersion) (hv : findVersion s vid = some version) :
    (applySkillFingerprintBackfillPatch s vid fp pv re ids).2 =
      { skills := s.skills
        versions := if pv then s.versions.map (fun v =>
            if v.docId == vid then { v with fingerprint := some fp } else v)
          else s.versions
        fpEntries := if re then
            s.fpEntries.filter (fun e => !(ids.contains e.docId)) ++
              [⟨s.nextId, version.skillId, version.docId, fp, s.now⟩]
          else s.fpEntries
        now := s.now
        nextId := if re then s.nextId + 1 else s.nextId } := by
  unfold applySkillFingerprintBackfillPatch
  rw [hv]
  cases pv <;> cases re <;> simp [deleteFold_fpEntries]

theorem map_docId_patchV (l : List SkillVersion) (vid : Nat) (fp : String) :
    (l.map (fun v => if v.docId == vid then { v with fingerprint := some fp } else v)).map
        (fun v => v.docId) =
      l.map (fun v => v.docId) := by
  rw [List.map_map]
  apply List.map_congr_left
  intro v _
  simp only [Function.comp_apply]
  split <;> rfl

theorem fpInv_patchVersions {s0 s : Store} (hinv : FpInv s0 s) (vid : Nat) (fp : String) :
    FpInv s0 { s with versions := s.versions.map (fun v =>
      if v.docId == vid then { v with fingerprint := some fp } else v) } := by
  refine ⟨hinv.skillsEq, ?_, hinv.nowEq, hinv.entrySound, hinv.nextIdMono,
    hinv.entriesNodup, hinv.entriesFresh⟩
  show (s.versions.map _).map _ = _
  rw [map_docId_patchV]
  exact hinv.verIds

theorem fpInv_replaceEntries {s0 s : Store} (hinv : FpInv s0 s) (ids : List Nat)
    (sk vd : Nat) (fp : String) :
    FpInv s0 { s with
      fpEntries := s.fpEntries.filter (fun e => !(ids.contains e.docId)) ++
        [⟨s.nextId, sk, vd, fp, s.now⟩],
      nextId := s.nextId + 1 } := by
  have hids : ∀ e ∈ s.fpEntries.filter (fun e => !(ids.contains e.docId)),
      e ∈ s.fpEntries := fun e he => List.mem_of_mem_filter he
  refine ⟨hinv.skillsEq, hinv.verIds, hinv.nowEq, ?_, ?_, ?_, ?_⟩
  · intro e he
    rcases List.mem_append.mp he with hf | hsing
    · exact hinv.entrySound e (hids e hf)
    · rcases List.mem_singleton.mp hsing with rfl
      exact .inr hinv.nextIdMono
  · exact le_trans hinv.nextIdMono (Nat.le_succ _)
  · dsimp only
    rw [List.map_append]
    apply List.Nodup.append
    · exact List.Sublist.nodup (List.Sublist.map _ (List.filter_sublist _)) hinv.entriesNodup
    · simp
    · intro a ha hb
      simp only [List.map_cons, List.map_nil, List.mem_singleton] at hb
      subst hb
      rcases List.mem_map.mp ha with ⟨e, he, heq⟩
      exact absurd heq (Nat.ne_of_lt (hinv.entriesFresh e (hids e he)))
  · intro e he
    rcases List.mem_append.mp he with hf | hsing
    · exact Nat.lt_succ_of_lt (hinv.entriesFresh e (hids e hf))
    · rcases List.mem_singleton.mp hsing with rfl
      exact Nat.lt_succ_self _

theorem fpApplyPatch_inv {s0 s : Store} (hinv : FpInv s0 s) (vid : Nat) (fp : String)
    (pv re : Bool) (ids : List Nat) :
    FpInv s0 (applySkillFingerprintBackfillPatch s vid fp pv re ids).2 := by
  unfold applySkillFingerprintBackfillPatch
  cases hfv : findVersion s vid with
  | none => exact hinv
  | some version =>
    dsimp only
    have hinv1 : FpInv s0 (if pv then { s with versions := s.versions.map (fun v =>
        if v.docId == vid then { v with fingerprint := some fp } else v) } else s) := by
      cases pv
      · exact hinv
      · exact fpInv_patchVersions hinv vid fp
    cases re
    · exact hinv1
    · rw [deleteFold_fpEntries]
      exact fpInv_replaceEntries hinv1 ids version.skillId version.docId fp

theorem fpItemApply_inv {s0 s : Store} (hinv : FpInv s0 s)
    (h : List (String × String) → String) (item : FingerprintBackfillPageItem) :
    FpInv s0 (fpItemApply h false item s) := by
  unfold fpItemApply
  dsimp only
  split
  · exact hinv
  · split
    · exact hinv
    · exact fpApplyPatch_inv hinv _ _ _ _ _

theorem fetchedEntries_subset (s : Store) (vid : Nat) :
    ∀ e ∈ fetchedEntries s vid, e ∈ s.fpEntries ∧ e.versionId = vid := by
  intro e he
  have hmem : e ∈ entriesFor s vid := (List.take_sublist _ _).subset he
  have := List.mem_filter.mp hmem
  exact ⟨this.1, by simpa using this.2⟩

theorem mkFpItem_listedIds (sB : Store) (v : SkillVersion) :
    (mkFpItem sB v).existingEntries.map (fun e => e.1) = fpListedIds sB v.docId := by
  simp [mkFpItem, fpListedIds, List.map_map]

theorem listed_not_in_other {sB s : Store}
    (hBend : (sB.fpEntries.map (fun e => e.docId)).Nodup)
    (hBfr : ∀ e ∈ sB.fpEntries, e.docId < sB.nextId)
    (hinv : FpInv sB s) (v : SkillVersion) (w : Nat) (hw : w ≠ v.docId)
    (e : FingerprintEntry) (hes : e ∈ s.fpEntries) (hew : e.versionId = w) :
    !((fpListedIds sB v.docId).contains e.docId) = true := by
  by_contra hcon
  simp only [Bool.not_eq_true, Bool.not_eq_false] at hcon
  have hcon' : e.docId ∈ fpListedIds sB v.docId := by
    simpa using hcon
  rcases List.mem_map.mp hcon' with ⟨eB, heB, heBid⟩
  have heBfacts := fetchedEntries_subset sB v.docId eB heB
  rcases hinv.entrySound e hes with ⟨e0, he0, hid0, hvid0⟩ | hfr
  · have : e0 = eB := List.inj_on_of_nodup_map hBend he0 heBfacts.1
      (by rw [hid0, heBid])
    rw [this] at hvid0
    exact hw (by rw [← hew, ← hvid0, heBfacts.2])
  · rw [← heBid] at hfr
    exact absurd hfr (not_le.mpr (hBfr eB heBfacts.1))

theorem fpItemApply_other (h : List (String × String) → String) {sB s : Store}
    (hBend : (sB.fpEntries.map (fun e => e.docId)).Nodup)
    (hBfr : ∀ e ∈ sB.fpEntries, e.docId < sB.nextId)
    (hinv : FpInv sB s) (v : SkillVersion) (w : Nat) (hw : w ≠ v.docId) :
    fpLocalState (fpItemApply h false (mkFpItem sB v) s) w = fpLocalState s w := by
  unfold fpItemApply
  dsimp only
  split
  · rfl
  · split
    · rfl
    · cases hfv : findVersion s (mkFpItem sB v).versionId with
      | none =>
        unfold applySkillFingerprintBackfillPatch
        rw [hfv]
      | some version =>
        have hverid : version.docId = v.docId := by
          have := List.find?_some hfv
          simpa using this
        rw [fpApplyPatch_spec _ _ _ _ _ _ version hfv]
        unfold fpLocalState findVersion entriesFor
        dsimp only
        refine congrArg₂ Prod.mk ?_ ?_
        · cases hsp : (fpItemDecision h (mkFpItem sB v)).1 with
          | false => rw [if_neg (by simp [hsp])]
          | true =>
            rw [if_pos (by simp [hsp])]
            exact find?_map_patch_ne (fun u => u.docId)
              (fun u => { u with fingerprint := some (h (mkFpItem sB v).files) })
              (fun a => rfl) (mkFpItem sB v).versionId w hw s.versions
        · cases hsr : (fpItemDecision h (mkFpItem sB v)).2 with
          | false => rw [if_neg (by simp [hsr])]
          | true =>
            rw [if_pos (by simp [hsr]), if_pos (by simp [hsr])]
            have hnew : (version.docId == w) = false := by
              simp only [beq_eq_false_iff_ne, ne_eq, hverid]
              exact fun hh => hw hh.symm
            simp only [List.filter_append, List.filter_cons, List.filter_nil]
            rw [hnew]
            simp only [Bool.false_eq_true, if_false, List.append_nil]
            rw [List.filter_filter]
            apply List.filter_congr
            intro e hes
            cases hew : (e.versionId == w) with
            | false => simp
            | true =>
              have hew' : e.versionId = w := by simpa using hew
              have hni := listed_not_in_other hBend hBfr hinv v w hw e hes hew'
              rw [mkFpItem_listedIds]
              simpa using hni

theorem fpItemApply_self (h : List (String × String) → String) {sB s : Store}
    (hBvnd : (sB.versions.map (fun v => v.docId)).Nodup)
    (hinv : FpInv sB s) {v : SkillVersion} (hv : v ∈ sB.versions)
    (hagree : fpLocalState s v.docId = fpLocalState sB v.docId) :
    fpLocalState (fpItemApply h false (mkFpItem sB v) s) v.docId =
      (some (fpOutcomeDoc h sB v), fpOutcomeEntries h sB v s.nextId) := by
  have hfB : findVersion sB v.docId = some v := by
    unfold findVersion
    exact find?_key_of_mem (fun u => u.docId) hBvnd hv
  have hfs : findVersion s v.docId = some v := by
    have h1 := congrArg Prod.fst hagree
    simpa [fpLocalState, hfB] using h1
  have hent : entriesFor s v.docId = entriesFor sB v.docId := by
    have h2 := congrArg Prod.snd hagree
    simpa [fpLocalState] using h2
  unfold fpItemApply
  dsimp only
  split
  · rename_i hskip
    simp only [Bool.and_eq_true, Bool.not_eq_true'] at hskip
    unfold fpOutcomeDoc fpOutcomeEntries
    rw [if_neg (by simp [hskip.1]), if_neg (by simp [hskip.2])]
    rw [fpLocalState, hfs, hent]
  · split
    · rename_i hdry
      exact absurd hdry (by simp)
    · cases hfv : findVersion s (mkFpItem sB v).versionId with
      | none => exact absurd (hfv.symm.trans hfs) (by simp)
      | some version =>
        have hversion : version = v := by
          have := hfv.symm.trans hfs
          simpa using this
        subst hversion
        rw [fpApplyPatch_spec _ _ _ _ _ _ version hfv]
        unfold fpLocalState findVersion entriesFor
        dsimp only
        refine congrArg₂ Prod.mk ?_ ?_
        · unfold fpOutcomeDoc
          cases hsp : (fpItemDecision h (mkFpItem sB version)).1 with
          | false =>
            rw [if_neg (by simp [hsp]), if_neg (by simp [hsp])]
            exact hfs
          | true =>
            rw [if_pos (by simp [hsp]), if_pos (by simp [hsp])]
            rw [find?_map_key (fun u => u.docId)
              (fun u => if u.docId == (mkFpItem sB version).versionId then
                { u with fingerprint := some (h (mkFpItem sB version).files) } else u)
              (fun a => by by_cases hx : (a.docId == (mkFpItem sB version).versionId) = true <;>
                simp [hx]) version.docId s.versions]
            rw [show s.versions.find? (fun a => a.docId == version.docId) = some version from hfs]
            simp [hashOfVersion, normFiles, mkFpItem]
        · unfold fpOutcomeEntries
          cases hsr : (fpItemDecision h (mkFpItem sB version)).2 with
          | false =>
            rw [if_neg (by simp [hsr]), if_neg (by simp [hsr])]
            exact hent
          | true =>
            rw [if_pos (by simp [hsr]), if_pos (by simp [hsr]), if_pos (by simp [hsr])]
            simp only [List.filter_append, List.filter_cons, List.filter_nil]
            rw [show (version.docId == version.docId) = true from by simp]
            simp only [if_true, List.nil_append]
            rw [List.filter_filter]
            have hcomm : s.fpEntries.filter (fun e =>
                (e.versionId == version.docId) &&
                  !((mkFpItem sB version).existingEntries.map (fun e => e.1)).contains e.docId) =
                (entriesFor s version.docId).filter (fun e =>
                  !((fpListedIds sB version.docId).contains e.docId)) := by
              rw [mkFpItem_listedIds]
              unfold entriesFor
              rw [List.filter_filter]
              apply List.filter_congr
              intro e _
              cases he1 : (e.versionId == version.docId) <;> simp
            rw [hcomm, hent]
            rw [hinv.nowEq]
            rfl

theorem fpItemApply_drop (h : List (String × String) → String)
    (item : FingerprintBackfillPageItem) (s : Store) (d : Nat)
    (hnd : ∀ u ∈ s.versions.drop d, u.docId ≠ item.versionId) :
    (fpItemApply h false item s).versions.drop d = s.versions.drop d := by
  unfold fpItemApply
  dsimp only
  split
  · rfl
  · split
    · rfl
    · cases hfv : findVersion s item.versionId with
      | none =>
        unfold applySkillFingerprintBackfillPatch
        rw [hfv]
      | some version =>
        rw [fpApplyPatch_spec _ _ _ _ _ _ version hfv]
        dsimp only
        cases hsp : (fpItemDecision h item).1 with
        | false => rw [if_neg (by simp [hsp])]
        | true =>
          rw [if_pos (by simp [hsp])]
          apply map_patch_drop
          intro u hu
          rw [if_neg (by simp [hnd u hu])]

theorem fpBatch_master (h : List (String × String) → String) (sB : Store)
    (hBvnd : (sB.versions.map (fun v => v.docId)).Nodup)
    (hBend : (sB.fpEntries.map (fun e => e.docId)).Nodup)
    (hBfr : ∀ e ∈ sB.fpEntries, e.docId < sB.nextId) :
    ∀ (P : List SkillVersion) (s : Store),
      (∀ v ∈ P, v ∈ sB.versions) → (P.map (fun v => v.docId)).Nodup →
      FpInv sB s →
      (∀ v ∈ P, fpLocalState s v.docId = fpLocalState sB v.docId) →
      ∀ s1, s1 = ((P.filter (fpEmitCond sB)).map (mkFpItem sB)).foldl
          (fun s2 item => fpItemApply h false item s2) s →
      FpInv sB s1 ∧
      (∀ w, (∀ v ∈ P, v.docId ≠ w) → fpLocalState s1 w = fpLocalState s w) ∧
      (∀ d, (∀ v ∈ P, ∀ u ∈ s.versions.drop d, u.docId ≠ v.docId) →
        s1.versions.drop d = s.versions.drop d) ∧
      (∀ v ∈ P, ∃ nid, sB.nextId ≤ nid ∧
        fpLocalState s1 v.docId = fpFinalLocal h sB v nid) := by
  intro P
  induction P with
  | nil =>
    intro s _ _ hinv _ s1 hs1
    subst hs1
    exact ⟨hinv, fun w _ => rfl, fun d _ => rfl, by simp⟩
  | cons v rest ih =>
    intro s hPmem hPnd hinv hagree s1 hs1
    have hvmem : v ∈ sB.versions := hPmem v (List.mem_cons_self _ _)
    have hrestmem : ∀ u ∈ rest, u ∈ sB.versions :=
      fun u hu => hPmem u (List.mem_cons_of_mem _ hu)
    have hPnd' := hPnd
    simp only [List.map_cons, List.nodup_cons] at hPnd'
    have hheadne : ∀ u ∈ rest, u.docId ≠ v.docId := by
      intro u hu hcon
      exact hPnd'.1 (hcon ▸ List.mem_map_of_mem _ hu)
    by_cases he : fpEmitCond sB v
    · rw [List.filter_cons, if_pos (by simpa using he), List.map_cons,
        List.foldl_cons] at hs1
      have hagreeA : ∀ u ∈ rest,
          fpLocalState (fpItemApply h false (mkFpItem sB v) s) u.docId =
            fpLocalState sB u.docId := by
        intro u hu
        rw [fpItemApply_other h hBend hBfr hinv v u.docId (hheadne u hu)]
        exact hagree u (List.mem_cons_of_mem _ hu)
      obtain ⟨inv1, pres1, drop1, final1⟩ := ih (fpItemApply h false (mkFpItem sB v) s)
        hrestmem hPnd'.2 (fpItemApply_inv hinv h _) hagreeA s1 hs1
      refine ⟨inv1, ?_, ?_, ?_⟩
      · intro w hwAll
        rw [pres1 w (fun u hu => hwAll u (List.mem_cons_of_mem _ hu))]
        exact fpItemApply_other h hBend hBfr hinv v w
          (fun hcon => hwAll v (List.mem_cons_self _ _) hcon.symm)
      · intro d hcond
        have hvd : ∀ u ∈ s.versions.drop d, u.docId ≠ (mkFpItem sB v).versionId :=
          fun u hu => hcond v (List.mem_cons_self _ _) u hu
        have hA : (fpItemApply h false (mkFpItem sB v) s).versions.drop d =
            s.versions.drop d := fpItemApply_drop h _ s d hvd
        have hcond2 : ∀ u ∈ rest,
            ∀ w ∈ (fpItemApply h false (mkFpItem sB v) s).versions.drop d,
              w.docId ≠ u.docId := by
          intro u hu w hw
          rw [hA] at hw
          exact hcond u (List.mem_cons_of_mem _ hu) w hw
        rw [drop1 d hcond2, hA]
      · intro u hu
        rcases List.mem_cons.mp hu with rfl | humem
        · refine ⟨s.nextId, hinv.nextIdMono, ?_⟩
          rw [pres1 u.docId (fun w hw => hheadne w hw)]
          rw [fpItemApply_self h hBvnd hinv hvmem (hagree u (List.mem_cons_self _ _))]
          rw [fpFinalLocal, if_pos he]
        · exact final1 u humem
    · rw [List.filter_cons, if_neg (by simpa using he)] at hs1
      obtain ⟨inv1, pres1, drop1, final1⟩ := ih s hrestmem hPnd'.2 hinv
        (fun u hu => hagree u (List.mem_cons_of_mem _ hu)) s1 hs1
      refine ⟨inv1, ?_, ?_, ?_⟩
      · intro w hwAll
        exact pres1 w (fun u hu => hwAll u (List.mem_cons_of_mem _ hu))
      · intro d hcond
        exact drop1 d (fun u hu => hcond u (List.mem_cons_of_mem _ hu))
      · intro u hu
        rcases List.mem_cons.mp hu with rfl | humem
        · refine ⟨sB.nextId, le_rfl, ?_⟩
          rw [pres1 u.docId (fun w hw => hheadne w hw)]
          rw [hagree u (List.mem_cons_self _ _)]
          rw [fpFinalLocal, if_neg he]
          rw [fpLocalState]
          rw [show findVersion sB u.docId = some u from by
            unfold findVersion
            exact find?_key_of_mem (fun x => x.docId) hBvnd hvmem]
        · exact final1 u humem

theorem fp_entries_congr (h : List (String × String) → String) {s s0 : Store}
    {v : SkillVersion} (he : entriesFor s v.docId = entriesFor s0 v.docId)
    (hnow : s.now = s0.now) :
    fetchedEntries s v.docId = fetchedEntries s0 v.docId ∧
    fpEmitCond s v = fpEmitCond s0 v ∧
    mkFpItem s v = mkFpItem s0 v ∧
    ∀ nid, fpFinalLocal h s v nid = fpFinalLocal h s0 v nid := by
  have hf : fetchedEntries s v.docId = fetchedEntries s0 v.docId := by
    unfold fetchedEntries
    rw [he]
  have hemit : fpEmitCond s v = fpEmitCond s0 v := by
    unfold fpEmitCond
    rw [hf]
  have hmk : mkFpItem s v = mkFpItem s0 v := by
    unfold mkFpItem
    rw [hf]
  refine ⟨hf, hemit, hmk, ?_⟩
  intro nid
  unfold fpFinalLocal fpOutcomeDoc fpOutcomeEntries fpListedIds
  rw [hf, he, hnow, hemit, hmk]

theorem take_drop_key_ne {α : Type} (key : α → Nat) {l : List α}
    (hnd : (l.map key).Nodup) (n : Nat) :
    ∀ a ∈ l.take n, ∀ b ∈ l.drop n, key b ≠ key a := by
  intro a ha b hb
  have hsplit : l.map key = (l.take n).map key ++ (l.drop n).map key := by
    rw [← List.map_append, List.take_append_drop]
  rw [hsplit] at hnd
  have hdisj := (List.nodup_append.mp hnd).2.2
  intro hcon
  exact hdisj (List.mem_map_of_mem key ha)
    (hcon ▸ List.mem_map_of_mem key hb)

theorem wfStore_of_fpInv {s0 s : Store} (hwf : WFStore s0) (hinv : FpInv s0 s) :
    WFStore s := by
  refine ⟨?_, ?_, hinv.entriesNodup, hinv.entriesFresh, ?_⟩
  · rw [hinv.skillsEq]; exact hwf.skillsNodup
  · rw [hinv.verIds]; exact hwf.versionsNodup
  · rw [hinv.skillsEq]; exact hwf.refsInj

theorem fpPage_items_congr (h : List (String × String) → String) {s s0 : Store}
    (pos bs : Nat) (htail : s.versions.drop pos = s0.versions.drop pos)
    (hent : ∀ v ∈ s0.versions.drop pos, entriesFor s v.docId = entriesFor s0 v.docId)
    (hnow : s.now = s0.now) :
    (getSkillFingerprintBackfillPageCore s pos bs).items =
      (getSkillFingerprintBackfillPageCore s0 pos bs).items := by
  unfold getSkillFingerprintBackfillPageCore
  dsimp only
  rw [htail]
  have hmem : ∀ v ∈ (s0.versions.drop pos).take bs, v ∈ s0.versions.drop pos :=
    fun v hv => (List.take_sublist _ _).subset hv
  rw [List.filter_congr (fun v hv =>
    (fp_entries_congr h (hent v (hmem v hv)) hnow).2.1)]
  apply List.map_congr_left
  intro v hv
  exact (fp_entries_congr h (hent v (hmem v ((List.filter_sublist _).subset hv))) hnow).2.2.1

theorem fpRunBatches_succ (h : List (String × String) → String) (dry : Bool)
    (bs n pos : Nat) (acc : FingerprintBackfillStats × Store) :
    fpRunBatches h dry bs (n + 1) pos acc =
      (if (getSkillFingerprintBackfillPageCore acc.2 pos bs).isDone then
        .ok ((getSkillFingerprintBackfillPageCore acc.2 pos bs).items.foldl
          (fpProcessItem h dry) acc)
      else fpRunBatches h dry bs n (pos + bs)
        ((getSkillFingerprintBackfillPageCore acc.2 pos bs).items.foldl
          (fpProcessItem h dry) acc)) := rfl

theorem fpStatsBatches_succ (h : List (String × String) → String) (s0 : Store)
    (bs n pos : Nat) (st : FingerprintBackfillStats) :
    fpStatsBatches h s0 bs (n + 1) pos st =
      (if (getSkillFingerprintBackfillPageCore s0 pos bs).isDone then
        .ok ((getSkillFingerprintBackfillPageCore s0 pos bs).items.foldl
          (fpItemStats h) st)
      else fpStatsBatches h s0 bs n (pos + bs)
        ((getSkillFingerprintBackfillPageCore s0 pos bs).items.foldl
          (fpItemStats h) st)) := rfl

theorem summaryRunBatches_succ (dS : String → Option String)
    (dP : String → Option ParsedSkillData) (blobs : List (Nat × String)) (dry : Bool)
    (bs n pos : Nat) (acc : BackfillStats × Store) :
    summaryRunBatches dS dP blobs dry bs (n + 1) pos acc =
      (if (getSkillBackfillPageCore acc.2 pos bs).isDone then
        .ok ((getSkillBackfillPageCore acc.2 pos bs).items.foldl
          (summaryProcessItem dS dP blobs dry) acc)
      else summaryRunBatches dS dP blobs dry bs n (pos + bs)
        ((getSkillBackfillPageCore acc.2 pos bs).items.foldl
          (summaryProcessItem dS dP blobs dry) acc)) := rfl

theorem summaryStatsBatches_succ (dS : String → Option String)
    (dP : String → Option ParsedSkillData) (blobs : List (Nat × String)) (s0 : Store)
    (bs n pos : Nat) (st : BackfillStats) :
    summaryStatsBatches dS dP blobs s0 bs (n + 1) pos st =
      (if (getSkillBackfillPageCore s0 pos bs).isDone then
        .ok ((getSkillBackfillPageCore s0 pos bs).items.foldl
          (summaryItemStats dS dP blobs) st)
      else summaryStatsBatches dS dP blobs s0 bs n (pos + bs)
        ((getSkillBackfillPageCore s0 pos bs).items.foldl
          (summaryItemStats dS dP blobs) st)) := rfl

theorem fpRun_master (h : List (String × String) → String) (bs : Nat) :
    ∀ (fuel pos : Nat) (st : FingerprintBackfillStats) (s0 s : Store),
      WFStore s0 → FpInv s0 s →
      s.versions.drop pos = s0.versions.drop pos →
      (∀ v ∈ s0.versions.drop pos, fpLocalState s v.docId = fpLocalState s0 v.docId) →
      (Except.map Prod.fst (fpRunBatches h false bs fuel pos (st, s)) =
        fpStatsBatches h s0 bs fuel pos st) ∧
      (∀ stats s1, fpRunBatches h false bs fuel pos (st, s) = .ok (stats, s1) →
        FpInv s0 s1 ∧
        (∀ v ∈ s0.versions.drop pos, ∃ nid, s0.nextId ≤ nid ∧
          fpLocalState s1 v.docId = fpFinalLocal h s0 v nid) ∧
        (∀ w, (∀ v ∈ s0.versions.drop pos, v.docId ≠ w) →
          fpLocalState s1 w = fpLocalState s w)) := by
  intro fuel
  induction fuel with
  | zero =>
    intro pos st s0 s hwf hinv htail hent
    constructor
    · rfl
    · intro stats s1 heq
      exact absurd heq (by simp [fpRunBatches])
  | succ n ihn =>
    intro pos st s0 s hwf hinv htail hent
    have hwfs : WFStore s := wfStore_of_fpInv hwf hinv
    have hentE : ∀ v ∈ s0.versions.drop pos,
        entriesFor s v.docId = entriesFor s0 v.docId := by
      intro v hv
      have := congrArg Prod.snd (hent v hv)
      simpa [fpLocalState] using this
    have hPmemS : ∀ v ∈ (s0.versions.drop pos).take bs, v ∈ s.versions := by
      intro v hv
      have hvs : v ∈ s.versions.drop pos := by
        rw [htail]
        exact (List.take_sublist _ _).subset hv
      exact (List.drop_sublist _ _).subset hvs
    have hPsubdrop : ∀ v ∈ (s0.versions.drop pos).take bs,
        v ∈ s0.versions.drop pos := fun v hv => (List.take_sublist _ _).subset hv
    have hPnd : (((s0.versions.drop pos).take bs).map (fun v => v.docId)).Nodup :=
      List.Sublist.nodup (List.Sublist.map _
        ((List.take_sublist _ _).trans (List.drop_sublist _ _))) hwf.versionsNodup
    have hitems_s : (getSkillFingerprintBackfillPageCore s pos bs).items =
        ((((s0.versions.drop pos).take bs).filter (fpEmitCond s)).map (mkFpItem s)) := by
      unfold getSkillFingerprintBackfillPageCore
      dsimp only
      rw [htail]
    obtain ⟨binv0, bpres, bdrop, bfinal⟩ := fpBatch_master h s hwfs.versionsNodup
      hwfs.entriesNodup hwfs.entriesFresh ((s0.versions.drop pos).take bs) s hPmemS hPnd
      (fpInv_refl s hwfs) (fun v _ => rfl)
      (((((s0.versions.drop pos).take bs).filter (fpEmitCond s)).map (mkFpItem s)).foldl
        (fun s2 item => fpItemApply h false item s2) s) rfl
    have hinv1 : FpInv s0 (((((s0.versions.drop pos).take bs).filter
        (fpEmitCond s)).map (mkFpItem s)).foldl
        (fun s2 item => fpItemApply h false item s2) s) := fpInv_trans hinv binv0
    have hitems_eq : (getSkillFingerprintBackfillPageCore s pos bs).items =
        (getSkillFingerprintBackfillPageCore s0 pos bs).items :=
      fpPage_items_congr h pos bs htail hentE hinv.nowEq
    have hlen : s.versions.length = s0.versions.length := by
      have := congrArg List.length hinv.verIds
      simpa using this
    have hstore_fold : ((getSkillFingerprintBackfillPageCore s pos bs).items.foldl
        (fpProcessItem h false) (st, s)) =
        ((getSkillFingerprintBackfillPageCore s pos bs).items.foldl (fpItemStats h) st,
          (((((s0.versions.drop pos).take bs).filter (fpEmitCond s)).map (mkFpItem s)).foldl
            (fun s2 item => fpItemApply h false item s2) s)) := by
      rw [fpBatchFold_factor]
      rw [hitems_s]
    have hstats_fold : (getSkillFingerprintBackfillPageCore s pos bs).items.foldl
        (fpItemStats h) st = (getSkillFingerprintBackfillPageCore s0 pos bs).items.foldl
        (fpItemStats h) st := by rw [hitems_eq]
    have hdisjS : ∀ v ∈ (s0.versions.drop pos).take bs,
        ∀ u ∈ s.versions.drop (pos + bs), u.docId ≠ v.docId := by
      intro v hv u hu
      have hvS : v ∈ (s.versions.drop pos).take bs := by
        rw [htail]
        exact hv
      have huS : u ∈ (s.versions.drop pos).drop bs := by
        rw [List.drop_drop]
        exact hu
      exact take_drop_key_ne (fun x => x.docId)
        (List.Sublist.nodup (List.Sublist.map _ (List.drop_sublist _ _))
          hwfs.versionsNodup) bs v hvS u huS
    have hdisj0 : ∀ v ∈ (s0.versions.drop pos).take bs,
        ∀ u ∈ s0.versions.drop (pos + bs), u.docId ≠ v.docId := by
      intro v hv u hu
      have huS : u ∈ (s0.versions.drop pos).drop bs := by
        rw [List.drop_drop]
        exact hu
      exact take_drop_key_ne (fun x => x.docId)
        (List.Sublist.nodup (List.Sublist.map _ (List.drop_sublist _ _))
          hwf.versionsNodup) bs v hv u huS
    have hsplit0 : s0.versions.drop pos =
        (s0.versions.drop pos).take bs ++ s0.versions.drop (pos + bs) := by
      have := (List.take_append_drop bs (s0.versions.drop pos)).symm
      rw [List.drop_drop] at this
      exact this
    have hmem_up : ∀ v ∈ s0.versions.drop (pos + bs), v ∈ s0.versions.drop pos := by
      intro v hv
      rw [hsplit0]
      exact List.mem_append_right _ hv
    have htailA : (((((s0.versions.drop pos).take bs).filter (fpEmitCond s)).map
        (mkFpItem s)).foldl (fun s2 item => fpItemApply h false item s2) s).versions.drop
          (pos + bs) = s.versions.drop (pos + bs) := bdrop _ hdisjS
    have htail' : (((((s0.versions.drop pos).take bs).filter (fpEmitCond s)).map
        (mkFpItem s)).foldl (fun s2 item => fpItemApply h false item s2) s).versions.drop
          (pos + bs) = s0.versions.drop (pos + bs) := by
      rw [htailA]
      have := congrArg (List.drop bs) htail
      rw [List.drop_drop, List.drop_drop] at this
      exact this
    have hent' : ∀ v ∈ s0.versions.drop (pos + bs),
        fpLocalState (((((s0.versions.drop pos).take bs).filter (fpEmitCond s)).map
          (mkFpItem s)).foldl (fun s2 item => fpItemApply h false item s2) s) v.docId =
          fpLocalState s0 v.docId := by
      intro v hv
      rw [bpres v.docId (fun p hp => (hdisj0 p hp v hv).symm)]
      exact hent v (hmem_up v hv)
    have hfinal_congr : ∀ v ∈ (s0.versions.drop pos).take bs, ∀ nid,
        fpFinalLocal h s v nid = fpFinalLocal h s0 v nid := by
      intro v hv nid
      exact (fp_entries_congr h (hentE v (hPsubdrop v hv)) hinv.nowEq).2.2.2 nid
    constructor
    · rw [fpRunBatches_succ, fpStatsBatches_succ]
      dsimp only
      rw [hstore_fold, hstats_fold]
      by_cases hdn : s0.versions.length ≤ pos + bs
      · rw [if_pos (by unfold getSkillFingerprintBackfillPageCore; simpa [hlen] using hdn),
          if_pos (by unfold getSkillFingerprintBackfillPageCore; simpa using hdn)]
        rfl
      · rw [if_neg (by unfold getSkillFingerprintBackfillPageCore; simpa [hlen] using hdn),
          if_neg (by unfold getSkillFingerprintBackfillPageCore; simpa using hdn)]
        exact (ihn (pos + bs) _ s0 _ hwf hinv1 htail' hent').1
    · intro stats s1 heq
      rw [fpRunBatches_succ] at heq
      dsimp only at heq
      rw [hstore_fold] at heq
      by_cases hdn : s0.versions.length ≤ pos + bs
      · rw [if_pos (by unfold getSkillFingerprintBackfillPageCore; simpa [hlen] using hdn)]
          at heq
        have hs1 : s1 = ((((s0.versions.drop pos).take bs).filter (fpEmitCond s)).map
            (mkFpItem s)).foldl (fun s2 item => fpItemApply h false item s2) s := by
          have := congrArg (fun x => Prod.snd <$> x) heq
          simpa using this.symm
        subst hs1
        have hPall : (s0.versions.drop pos).take bs = s0.versions.drop pos := by
          apply List.take_of_length_le
          rw [List.length_drop]
          omega
        refine ⟨hinv1, ?_, ?_⟩
        · intro v hv
          have hvP : v ∈ (s0.versions.drop pos).take bs := by rw [hPall]; exact hv
          obtain ⟨nid, hnid, hfin⟩ := bfinal v hvP
          exact ⟨nid, le_trans hinv.nextIdMono hnid,
            by rw [hfin]; exact hfinal_congr v hvP nid⟩
        · intro w hw
          exact bpres w (fun p hp => hw p (by rw [← hPall]; exact hp))
      · rw [if_neg (by unfold getSkillFingerprintBackfillPageCore; simpa [hlen] using hdn)]
          at heq
        obtain ⟨rinv, rfinal, rpres⟩ := (ihn (pos + bs) _ s0 _ hwf hinv1 htail' hent').2
          stats s1 heq
        refine ⟨rinv, ?_, ?_⟩
        · intro v hv
          rcases List.mem_append.mp (by rw [← hsplit0]; exact hv) with hvP | hvD
          · obtain ⟨nid, hnid, hfin⟩ := bfinal v hvP
            refine ⟨nid, le_trans hinv.nextIdMono hnid, ?_⟩
            rw [rpres v.docId (fun u hu => hdisj0 v hvP u hu), hfin]
            exact hfinal_congr v hvP nid
          · exact rfinal v hvD
        · intro w hw
          rw [rpres w (fun v hv => hw v (hmem_up v hv))]
          exact bpres w (fun p hp => hw p (hPsubdrop p hp))

theorem fpItemDecision_fst (h : List (String × String) → String) (s : Store)
    (v : SkillVersion) :
    ((fpItemDecision h (mkFpItem s v)).1 = false ↔
      v.fingerprint = some (hashOfVersion h v)) := by
  unfold fpItemDecision mkFpItem
  dsimp only
  constructor
  · intro hf
    simp only [Bool.not_eq_false', beq_iff_eq] at hf
    exact hf
  · intro hf
    simp only [Bool.not_eq_false', beq_iff_eq]
    exact hf

theorem fpItemDecision_snd (h : List (String × String) → String) (s : Store)
    (v : SkillVersion) :
    ((fpItemDecision h (mkFpItem s v)).2 = false ↔
      (fetchedEntries s v.docId ≠ [] ∧
        ((fetchedEntries s v.docId).map (fun e => e.fingerprint)).dedup.length = 1 ∧
        hashOfVersion h v ∈ ((fetchedEntries s v.docId).map (fun e => e.fingerprint)).dedup)) := by
  unfold fpItemDecision mkFpItem
  dsimp only
  rw [List.map_map]
  simp only [Bool.not_eq_false', Bool.and_eq_true, beq_iff_eq, List.length_map,
    decide_eq_true_eq, List.length_pos]
  constructor
  · rintro ⟨⟨hne, hlen⟩, hmem⟩
    refine ⟨hne, hlen, ?_⟩
    have hco : ((fun (e : Nat × String) => e.2) ∘ (fun (e : FingerprintEntry) =>
        (e.docId, e.fingerprint))) = (fun (e : FingerprintEntry) => e.fingerprint) := rfl
    rw [hco] at hmem
    simpa using hmem
  · rintro ⟨hne, hlen, hmem⟩
    have hco : ((fun (e : Nat × String) => e.2) ∘ (fun (e : FingerprintEntry) =>
        (e.docId, e.fingerprint))) = (fun (e : FingerprintEntry) => e.fingerprint) := rfl
    rw [hco]
    exact ⟨⟨hne, hlen⟩, by simpa using hmem⟩

theorem fpFinalLocal_analysis (h : List (String × String) → String) {s : Store}
    (v : SkillVersion) (hle : (entriesFor s v.docId).length ≤ 20)
    (hemit : fpEmitCond s v = true)
    (hone : ¬((fpItemDecision h (mkFpItem s v)).2 = false ∧
      1 < (entriesFor s v.docId).length)) (nid : Nat) :
    (∃ v1, (fpFinalLocal h s v nid).1 = some v1 ∧
      v1.fingerprint = some (hashOfVersion h v)) ∧
    ((fpFinalLocal h s v nid).2).map (fun e => e.fingerprint) =
      [hashOfVersion h v] := by
  have hfetch : fetchedEntries s v.docId = entriesFor s v.docId :=
    List.take_of_length_le hle
  unfold fpFinalLocal
  rw [if_pos hemit]
  constructor
  · cases hsp : (fpItemDecision h (mkFpItem s v)).1 with
    | true =>
      refine ⟨{ v with fingerprint := some (hashOfVersion h v) }, ?_, rfl⟩
      unfold fpOutcomeDoc
      rw [if_pos hsp]
    | false =>
      refine ⟨v, ?_, (fpItemDecision_fst h s v).mp hsp⟩
      unfold fpOutcomeDoc
      rw [if_neg (by simp [hsp])]
  · cases hsr : (fpItemDecision h (mkFpItem s v)).2 with
    | true =>
      show (fpOutcomeEntries h s v nid).map (fun e => e.fingerprint) = _
      unfold fpOutcomeEntries
      rw [if_pos hsr]
      have hkill : (entriesFor s v.docId).filter
          (fun e => !((fpListedIds s v.docId).contains e.docId)) = [] := by
        apply List.filter_eq_nil_iff.mpr
        intro e he
        simp only [Bool.not_eq_true, Bool.not_not]
        have : e.docId ∈ fpListedIds s v.docId := by
          unfold fpListedIds
          rw [hfetch]
          exact List.mem_map_of_mem _ he
        simpa using this
      rw [hkill]
      rfl
    | false =>
      show (fpOutcomeEntries h s v nid).map (fun e => e.fingerprint) = _
      unfold fpOutcomeEntries
      rw [if_neg (by simp [hsr])]
      obtain ⟨hne, hlen, hmem⟩ := (fpItemDecision_snd h s v).mp hsr
      rw [hfetch] at hne hlen hmem
      have hlen1 : (entriesFor s v.docId).length = 1 := by
        have hpos : 0 < (entriesFor s v.docId).length := List.length_pos.mpr hne
        by_contra hcon
        exact hone ⟨hsr, by omega⟩
      obtain ⟨e, he⟩ := List.length_eq_one.mp hlen1
      rw [he] at hmem ⊢
      simp only [List.map_cons, List.map_nil]
      have hfe : e.fingerprint = hashOfVersion h v := by
        have hh := List.mem_singleton.mp (by simpa using hmem)
        exact hh.symm
      rw [hfe]

theorem fpHandler_local (h : List (String × String) → String)
    (args : BackfillActionArgs) (s : Store) (hwf : WFStore s)
    (hdry : args.dryRun.getD false = false)
    (stats : FingerprintBackfillStats) (s1 : Store)
    (hrun : backfillSkillFingerprintsHandler h args s = .ok (stats, s1)) :
    FpInv s s1 ∧ ∀ v ∈ s.versions, ∃ nid, s.nextId ≤ nid ∧
      fpLocalState s1 v.docId = fpFinalLocal h s v nid := by
  unfold backfillSkillFingerprintsHandler at hrun
  rw [hdry] at hrun
  obtain ⟨rinv, rfinal, _⟩ := (fpRun_master h _ _ 0 _ s s hwf (fpInv_refl s hwf) rfl
    (fun v _ => rfl)).2 stats s1 hrun
  refine ⟨rinv, fun v hv => rfinal v ?_⟩
  simpa using hv

/-- C1 (amended): for a version with at most 20 fingerprint entries which the
page fetcher emits as needing work (stored fingerprint absent or empty, no
entries, or entries disagreeing with each other or with the stored field),
and which is not already carrying several duplicate entries all equal to the
canonical hash, one completed non-dry-run fingerprint-backfill pass leaves it
with exactly one fingerprint entry whose value equals hash(files) and with its
stored fingerprint field equal to hash(files).  (Amendments forced by the
code: the fetcher reads at most 20 entries so versions with more are not
fully repaired; a stale stored fingerprint whose entries all match it is not
detected, since the fetcher never recomputes the hash — hence the emission
hypothesis; and several identical correct entries are kept, not collapsed.) -/
theorem fp_backfill_repairs_amended (h : List (String × String) → String)
    (args : BackfillActionArgs) (s : Store) (hwf : WFStore s)
    (hdry : args.dryRun.getD false = false) (v : SkillVersion) (hv : v ∈ s.versions)
    (hle : (entriesFor s v.docId).length ≤ 20) (hemit : fpEmitCond s v = true)
    (hone : ¬((fpItemDecision h (mkFpItem s v)).2 = false ∧
      1 < (entriesFor s v.docId).length))
    (stats : FingerprintBackfillStats) (s1 : Store)
    (hrun : backfillSkillFingerprintsHandler h args s = .ok (stats, s1)) :
    (∃ v1, findVersion s1 v.docId = some v1 ∧
      v1.fingerprint = some (hashOfVersion h v)) ∧
    (entriesFor s1 v.docId).map (fun e => e.fingerprint) = [hashOfVersion h v] := by
  obtain ⟨_, hlocal⟩ := fpHandler_local h args s hwf hdry stats s1 hrun
  obtain ⟨nid, _, hfin⟩ := hlocal v hv
  obtain ⟨⟨v1, hv1, hv1fp⟩, hents⟩ := fpFinalLocal_analysis h v hle hemit hone nid
  have h1 : findVersion s1 v.docId = (fpFinalLocal h s v nid).1 :=
    congrArg Prod.fst hfin
  have h2 : entriesFor s1 v.docId = (fpFinalLocal h s v nid).2 :=
    congrArg Prod.snd hfin
  exact ⟨⟨v1, h1.trans hv1, hv1fp⟩, by rw [h2]; exact hents⟩

/-- Witness for C1 (amended): a version with no entries and no stored
fingerprint is repaired by one pass. -/
theorem fp_backfill_repairs_amended_witness :
    (∃ v1, findVersion
        ⟨[], [⟨1, 1, [], ⟨[], none, none⟩, some "h"⟩], [⟨2, 1, 1, "h", 5⟩], 5, 3⟩
        1 = some v1 ∧ v1.fingerprint = some "h") ∧
    (entriesFor
        ⟨[], [⟨1, 1, [], ⟨[], none, none⟩, some "h"⟩], [⟨2, 1, 1, "h", 5⟩], 5, 3⟩
        1).map (fun e => e.fingerprint) = ["h"] := by
  have hwf : WFStore ⟨[], [⟨1, 1, [], ⟨[], none, none⟩, none⟩], [], 5, 2⟩ := by
    refine ⟨by simp, by simp, by simp, ?_, by simp⟩
    intro e he
    simp at he
  exact fp_backfill_repairs_amended (fun _ => "h") ⟨none, none, none⟩
    ⟨[], [⟨1, 1, [], ⟨[], none, none⟩, none⟩], [], 5, 2⟩ hwf rfl
    ⟨1, 1, [], ⟨[], none, none⟩, none⟩ (by simp) (by simp [entriesFor])
    (by decide) (by decide) ⟨1, 1, 1, 0⟩
    ⟨[], [⟨1, 1, [], ⟨[], none, none⟩, some "h"⟩], [⟨2, 1, 1, "h", 5⟩], 5, 3⟩
    (by rw [backfillSkillFingerprintsHandler]
        simp only [Option.getD_none, clampInt_default_bs, clampInt_default_mb]
        rfl)

/-- C1 counterexample: the claim as stated is false.  A version whose stored
fingerprint differs from the canonical hash of its files but whose single
entry agrees with the stored value is never emitted by the page fetcher (the
fetcher does not recompute the hash), so one completed non-dry-run pass
leaves the inconsistent state in place. -/
theorem fp_repair_claim_counterexample :
    fpClaimInconsistent (fun _ => "h")
      ⟨[], [⟨1, 1, [], ⟨[], none, none⟩, some "a"⟩], [⟨10, 1, 1, "a", 0⟩], 0, 11⟩
      ⟨1, 1, [], ⟨[], none, none⟩, some "a"⟩ = true ∧
    backfillSkillFingerprintsHandler (fun _ => "h") ⟨none, none, none⟩
      ⟨[], [⟨1, 1, [], ⟨[], none, none⟩, some "a"⟩], [⟨10, 1, 1, "a", 0⟩], 0, 11⟩ =
      .ok (⟨0, 0, 0, 0⟩,
        ⟨[], [⟨1, 1, [], ⟨[], none, none⟩, some "a"⟩], [⟨10, 1, 1, "a", 0⟩], 0, 11⟩) ∧
    (entriesFor
      ⟨[], [⟨1, 1, [], ⟨[], none, none⟩, some "a"⟩], [⟨10, 1, 1, "a", 0⟩], 0, 11⟩
      1).map (fun e => e.fingerprint) ≠ ["h"] ∧
    (⟨1, 1, [], ⟨[], none, none⟩, some "a"⟩ : SkillVersion).fingerprint ≠ some "h" := by
  refine ⟨by decide, ?_, by decide, by decide⟩
  rw [backfillSkillFingerprintsHandler]
  simp only [Option.getD_none, clampInt_default_bs, clampInt_default_mb]
  rfl

theorem length_filter_keyed_le {α : Type} (key : α → Nat) (l : List α)
    (ids : List Nat) (hnd : (l.map key).Nodup) (p : α → Bool)
    (hsub : ∀ a ∈ l, p a = true → key a ∈ ids) :
    (l.filter p).length ≤ ids.length := by
  have h1 : ((l.filter p).map key).Nodup :=
    List.Sublist.nodup (List.Sublist.map _ (List.filter_sublist _)) hnd
  have h2 : (l.filter p).map key ⊆ ids := by
    intro x hx
    rcases List.mem_map.mp hx with ⟨a, ha, hkey⟩
    exact hkey ▸ hsub a (List.mem_of_mem_filter ha) (List.of_mem_filter ha)
  have h3 := List.Subperm.length_le (List.subperm_of_subset h1 h2)
  simpa using h3

theorem fpFinalLocal_bounds (h : List (String × String) → String) {s : Store}
    (hnd : (s.fpEntries.map (fun e => e.docId)).Nodup)
    (v : SkillVersion) (nid : Nat) :
    ((entriesFor s v.docId).filter (fun e =>
      !(((fpFinalLocal h s v nid).2).map (fun x => x.docId)).contains e.docId)).length ≤ 20 ∧
    (((fpFinalLocal h s v nid).2).filter (fun e =>
      !((entriesFor s v.docId).map (fun x => x.docId)).contains e.docId)).length ≤ 1 := by
  have hold_nd : ((entriesFor s v.docId).map (fun e => e.docId)).Nodup :=
    List.Sublist.nodup (List.Sublist.map _ (List.filter_sublist _)) hnd
  have hold_mem : ∀ e ∈ entriesFor s v.docId, e ∈ s.fpEntries :=
    fun e he => List.mem_of_mem_filter he
  have hunchanged : ∀ (l : List FingerprintEntry), l = entriesFor s v.docId →
      ((entriesFor s v.docId).filter (fun e =>
        !(l.map (fun x => x.docId)).contains e.docId)).length ≤ 20 ∧
      (l.filter (fun e =>
        !((entriesFor s v.docId).map (fun x => x.docId)).contains e.docId)).length ≤ 1 := by
    intro l hl
    subst hl
    have hz : ∀ (q : List FingerprintEntry), (q.filter (fun e =>
        !(q.map (fun x => x.docId)).contains e.docId)) = [] := by
      intro q
      apply List.filter_eq_nil_iff.mpr
      intro e he
      simp only [Bool.not_eq_true, Bool.not_not]
      simpa using List.mem_map_of_mem (fun x => x.docId) he
    rw [hz]
    simp
  unfold fpFinalLocal
  by_cases hemit : fpEmitCond s v = true
  · rw [if_pos hemit]
    dsimp only
    unfold fpOutcomeEntries
    cases hsr : (fpItemDecision h (mkFpItem s v)).2 with
    | false =>
      rw [if_neg (by simp)]
      exact hunchanged _ rfl
    | true =>
      rw [if_pos rfl]
      constructor
      · apply le_trans (length_filter_keyed_le (fun e => e.docId) _
          (fpListedIds s v.docId) hold_nd _ ?_)
        · show (fpListedIds s v.docId).length ≤ 20
          unfold fpListedIds fetchedEntries
          rw [List.length_map]
          exact List.length_take_le _ _
        · intro e he hp
          by_contra hcon
          have hkept : e ∈ (entriesFor s v.docId).filter
              (fun x => !((fpListedIds s v.docId).contains x.docId)) :=
            List.mem_filter.mpr ⟨he, by simpa using hcon⟩
          have hmemnew : e.docId ∈ ((entriesFor s v.docId).filter
              (fun (x : FingerprintEntry) => !((fpListedIds s v.docId).contains x.docId)) ++
              [(⟨nid, v.skillId, v.docId, hashOfVersion h v, s.now⟩ : FingerprintEntry)]).map
              (fun (x : FingerprintEntry) => x.docId) :=
            List.mem_map_of_mem _ (List.mem_append_left _ hkept)
          have hp2 : e.docId ∉ ((entriesFor s v.docId).filter
              (fun (x : FingerprintEntry) => !((fpListedIds s v.docId).contains x.docId)) ++
              [(⟨nid, v.skillId, v.docId, hashOfVersion h v, s.now⟩ : FingerprintEntry)]).map
              (fun (x : FingerprintEntry) => x.docId) := by
            simpa using hp
          exact hp2 hmemnew
      · rw [List.filter_append]
        have hkeptnil : ((entriesFor s v.docId).filter
            (fun x => !((fpListedIds s v.docId).contains x.docId))).filter
            (fun e => !((entriesFor s v.docId).map (fun x => x.docId)).contains e.docId) =
            [] := by
          apply List.filter_eq_nil_iff.mpr
          intro e he
          have he2 : e ∈ entriesFor s v.docId := List.mem_of_mem_filter he
          simp only [Bool.not_eq_true, Bool.not_not]
          simpa using List.mem_map_of_mem (fun x => x.docId) he2
        rw [hkeptnil, List.nil_append]
        exact le_trans (List.length_filter_le _ _) (by simp)
  · rw [if_neg hemit]
    dsimp only
    exact hunchanged _ rfl

/-- C10: the fingerprint page fetcher reads at most 20 existing entries per
version (every emitted work item carries at most 20 entry summaries), the
orchestrator passes only those fetched entry ids to the applier for
deletion, and consequently one completed non-dry-run fingerprint-backfill
pass deletes at most 20 pre-existing entries per version and inserts at most
one new entry per version (measured by the entry ids that disappear from,
or appear in, each version's entry list). -/
theorem fp_backfill_change_bounds (h : List (String × String) → String)
    (args : BackfillActionArgs) (s : Store) (hwf : WFStore s)
    (hdry : args.dryRun.getD false = false)
    (stats : FingerprintBackfillStats) (s1 : Store)
    (hrun : backfillSkillFingerprintsHandler h args s = .ok (stats, s1)) :
    (∀ (cursor : Option Nat) (batchSize : Option JSNum),
      ∀ item ∈ (getSkillFingerprintBackfillPage s cursor batchSize).1.items,
        item.existingEntries.length ≤ 20) ∧
    (∀ v ∈ s.versions,
      ((entriesFor s v.docId).filter (fun e =>
        !((entriesFor s1 v.docId).map (fun x => x.docId)).contains e.docId)).length ≤ 20 ∧
      ((entriesFor s1 v.docId).filter (fun e =>
        !((entriesFor s v.docId).map (fun x => x.docId)).contains e.docId)).length ≤ 1) := by
  constructor
  · intro cursor batchSize item hitem
    unfold getSkillFingerprintBackfillPage getSkillFingerprintBackfillPageCore at hitem
    dsimp only at hitem
    rcases List.mem_map.mp hitem with ⟨v, _, rfl⟩
    show ((fetchedEntries s v.docId).map _).length ≤ 20
    rw [List.length_map]
    exact List.length_take_le _ _
  · intro v hv
    obtain ⟨_, hlocal⟩ := fpHandler_local h args s hwf hdry stats s1 hrun
    obtain ⟨nid, _, hfin⟩ := hlocal v hv
    have h2 : entriesFor s1 v.docId = (fpFinalLocal h s v nid).2 :=
      congrArg Prod.snd hfin
    rw [h2]
    exact fpFinalLocal_bounds h hwf.entriesNodup v nid

/-- Witness for C10 at a concrete store: one version with one stale entry. -/
theorem fp_backfill_change_bounds_witness :
    ((entriesFor ⟨[], [⟨1, 1, [], ⟨[], none, none⟩, none⟩], [⟨7, 1, 1, "x", 0⟩], 5, 8⟩
        1).filter (fun e =>
      !((entriesFor ⟨[], [⟨1, 1, [], ⟨[], none, none⟩, some "h"⟩], [⟨8, 1, 1, "h", 5⟩], 5, 9⟩
          1).map (fun x => x.docId)).contains e.docId)).length ≤ 20 := by
  have hwf : WFStore ⟨[], [⟨1, 1, [], ⟨[], none, none⟩, none⟩], [⟨7, 1, 1, "x", 0⟩], 5, 8⟩ := by
    refine ⟨by simp, by simp, by simp, ?_, by simp⟩
    intro e he
    simp only [List.mem_singleton] at he
    rw [he]
    norm_num
  exact ((fp_backfill_change_bounds (fun _ => "h") ⟨none, none, none⟩
    ⟨[], [⟨1, 1, [], ⟨[], none, none⟩, none⟩], [⟨7, 1, 1, "x", 0⟩], 5, 8⟩ hwf rfl
    ⟨1, 1, 1, 1⟩
    ⟨[], [⟨1, 1, [], ⟨[], none, none⟩, some "h"⟩], [⟨8, 1, 1, "h", 5⟩], 5, 9⟩
    (by rw [backfillSkillFingerprintsHandler]
        simp only [Option.getD_none, clampInt_default_bs, clampInt_default_mb]
        rfl)).2 ⟨1, 1, [], ⟨[], none, none⟩, none⟩ (by simp)).1

theorem summaryItemApply_dry (dS : String → Option String)
    (dP : String → Option ParsedSkillData) (blobs : List (Nat × String))
    (item : BackfillPageItem) (s : Store) :
    summaryItemApply dS dP blobs true item s = s := by
  unfold summaryItemApply
  cases item with
  | ok a b c d e =>
    dsimp only
    cases lookupBlob blobs e with
    | none => rfl
    | some t =>
      dsimp only
      split
      · rfl
      · rfl
  | missingLatestVersion a => rfl
  | missingVersionDoc a b => rfl
  | missingReadme a b => rfl

theorem fpItemApply_dry (h : List (String × String) → String)
    (item : FingerprintBackfillPageItem) (s : Store) :
    fpItemApply h true item s = s := by
  unfold fpItemApply
  dsimp only
  split
  · rfl
  · rfl

theorem summaryRunBatches_dry (dS : String → Option String)
    (dP : String → Option ParsedSkillData) (blobs : List (Nat × String)) (bs : Nat) :
    ∀ (fuel pos : Nat) (st : BackfillStats) (s : Store),
      summaryRunBatches dS dP blobs true bs fuel pos (st, s) =
        (summaryStatsBatches dS dP blobs s bs fuel pos st).map (fun x => (x, s)) := by
  intro fuel
  induction fuel with
  | zero => intro pos st s; rfl
  | succ n ih =>
    intro pos st s
    rw [summaryRunBatches_succ, summaryStatsBatches_succ]
    dsimp only
    rw [summaryBatchFold_factor]
    have hsid : ((getSkillBackfillPageCore s pos bs).items.foldl
        (fun s2 item => summaryItemApply dS dP blobs true item s2) s) = s :=
      foldl_preserves _ id (fun b c => summaryItemApply_dry dS dP blobs c b) _ s
    rw [hsid]
    by_cases hd : (getSkillBackfillPageCore s pos bs).isDone = true
    · rw [if_pos hd, if_pos hd]
      rfl
    · rw [if_neg hd, if_neg hd]
      exact ih (pos + bs) _ s

theorem fpRunBatches_dry (h : List (String × String) → String) (bs : Nat) :
    ∀ (fuel pos : Nat) (st : FingerprintBackfillStats) (s : Store),
      fpRunBatches h true bs fuel pos (st, s) =
        (fpStatsBatches h s bs fuel pos st).map (fun x => (x, s)) := by
  intro fuel
  induction fuel with
  | zero => intro pos st s; rfl
  | succ n ih =>
    intro pos st s
    rw [fpRunBatches_succ, fpStatsBatches_succ]
    dsimp only
    rw [fpBatchFold_factor]
    have hsid : ((getSkillFingerprintBackfillPageCore s pos bs).items.foldl
        (fun s2 item => fpItemApply h true item s2) s) = s :=
      foldl_preserves _ id (fun b c => fpItemApply_dry h c b) _ s
    rw [hsid]
    by_cases hd : (getSkillFingerprintBackfillPageCore s pos bs).isDone = true
    · rw [if_pos hd, if_pos hd]
      rfl
    · rw [if_neg hd, if_neg hd]
      exact ih (pos + bs) _ s

theorem classifySkill_ok_inv {sB : Store} {sk : Skill} {a b : Nat} {c : Option String}
    {d : ParsedSkillData} {e : Nat}
    (hcl : classifySkill sB sk = .ok a b c d e) :
    a = sk.docId ∧ sk.latestVersionId = some b ∧ c = sk.summary ∧
    ∃ version, findVersion sB b = some version ∧ d = version.parsed := by
  unfold classifySkill at hcl
  cases href : sk.latestVersionId with
  | none =>
    simp only [href] at hcl
    exact absurd hcl (by simp)
  | some vid =>
    simp only [href] at hcl
    cases hfv : findVersion sB vid with
    | none =>
      simp only [hfv] at hcl
      exact absurd hcl (by simp)
    | some version =>
      simp only [hfv] at hcl
      cases hrd : findReadmeFile version.files with
      | none =>
        simp only [hrd] at hcl
        exact absurd hcl (by simp)
      | some f =>
        simp only [hrd] at hcl
        have hvd : version.docId = vid := by
          simpa using List.find?_some hfv
        simp only [BackfillPageItem.ok.injEq] at hcl
        obtain ⟨h1, h2, h3, h4, h5⟩ := hcl
        refine ⟨h1.symm, ?_, h3.symm, version, ?_, h4.symm⟩
        · rw [← h2, hvd]
        · rw [← h2, hvd]
          exact hfv

theorem summaryItemApply_classify (dS : String → Option String)
    (dP : String → Option ParsedSkillData) (blobs : List (Nat × String))
    (sB s : Store) (sk : Skill) :
    summaryItemApply dS dP blobs false (classifySkill sB sk) s =
      (match summaryPatchFor dS dP blobs sB sk, sk.latestVersionId with
      | some p, some vid => applySkillBackfillPatch s sk.docId vid p.summary p.parsed
      | _, _ => s) := by
  cases hcl : classifySkill sB sk with
  | missingLatestVersion a =>
    unfold summaryPatchFor
    simp only [hcl]
    rfl
  | missingVersionDoc a b =>
    unfold summaryPatchFor
    simp only [hcl]
    rfl
  | missingReadme a b =>
    unfold summaryPatchFor
    simp only [hcl]
    rfl
  | ok a b c d e =>
    obtain ⟨ha, href, hc, version, hfv, hd⟩ := classifySkill_ok_inv hcl
    unfold summaryPatchFor
    simp only [hcl]
    unfold summaryItemApply
    dsimp only
    cases hblob : lookupBlob blobs e with
    | none =>
      simp only [hblob]
    | some txt =>
      simp only [hblob]
      by_cases hskip : (!jsTruthyStr
          (buildSkillSummaryBackfillPatch dS dP txt c d).summary &&
          (buildSkillSummaryBackfillPatch dS dP txt c d).parsed == none) = true
      · rw [if_pos hskip, if_pos hskip]
      · rw [if_neg hskip, if_neg hskip, href]
        simp only [Bool.false_eq_true, if_false]
        rw [ha]

theorem map_proj_patch {α : Type} {β : Type} (key : α → Nat) (proj : α → β)
    (g : α → α) (hpg : ∀ a, proj (g a) = proj a) (target : Nat) (l : List α) :
    (l.map (fun a => if key a == target then g a else a)).map proj = l.map proj := by
  rw [List.map_map]
  apply List.map_congr_left
  intro a _
  simp only [Function.comp_apply]
  split
  · exact hpg a
  · rfl

theorem sumInv_apply {s0 s : Store} (hinv : SumInv s0 s) (sid vid : Nat)
    (su : Option String) (pa : Option ParsedSkillData) :
    SumInv s0 (applySkillBackfillPatch s sid vid su pa) := by
  have hskills : ∀ (str : String),
      SumInv s0 { s with skills := s.skills.map (fun sk =>
        if sk.docId == sid then { sk with summary := some str, updatedAt := s.now }
        else sk) } := by
    intro str
    refine ⟨?_, ?_, hinv.verIds, hinv.fpEq, hinv.nowEq, hinv.nextIdEq⟩
    · show (s.skills.map _).map _ = _
      rw [map_proj_patch (fun (x : Skill) => x.docId) (fun (x : Skill) => x.docId)
        (fun (sk : Skill) => { sk with summary := some str, updatedAt := s.now })
        (fun a => rfl)]
      exact hinv.skillIds
    · show (s.skills.map _).map _ = _
      rw [map_proj_patch (fun (x : Skill) => x.docId) (fun (x : Skill) => x.latestVersionId)
        (fun (sk : Skill) => { sk with summary := some str, updatedAt := s.now })
        (fun a => rfl)]
      exact hinv.refs
  have hver : ∀ (s2 : Store), SumInv s0 s2 → ∀ (p : ParsedSkillData),
      SumInv s0 { s2 with versions := s2.versions.map (fun v =>
        if v.docId == vid then { v with parsed := p } else v) } := by
    intro s2 hinv2 p
    refine ⟨hinv2.skillIds, hinv2.refs, ?_, hinv2.fpEq, hinv2.nowEq, hinv2.nextIdEq⟩
    show (s2.versions.map _).map _ = _
    rw [map_proj_patch (fun (x : SkillVersion) => x.docId) (fun (x : SkillVersion) => x.docId)
      (fun (v : SkillVersion) => { v with parsed := p }) (fun a => rfl)]
    exact hinv2.verIds
  unfold applySkillBackfillPatch
  cases su with
  | none =>
    cases pa with
    | none => exact hinv
    | some p => exact hver s hinv p
  | some str =>
    cases pa with
    | none => exact hskills str
    | some p => exact hver _ (hskills str) p

theorem sumInv_itemApply {s0 s : Store} (hinv : SumInv s0 s)
    (dS : String → Option String) (dP : String → Option ParsedSkillData)
    (blobs : List (Nat × String)) (sB : Store) (sk : Skill) :
    SumInv s0 (summaryItemApply dS dP blobs false (classifySkill sB sk) s) := by
  rw [summaryItemApply_classify]
  cases summaryPatchFor dS dP blobs sB sk with
  | none => exact hinv
  | some p =>
    cases sk.latestVersionId with
    | none => exact hinv
    | some vid => exact sumInv_apply hinv _ _ _ _

theorem applyPatch_findSkill_other (s : Store) (sid vid : Nat) (su : Option String)
    (pa : Option ParsedSkillData) (w : Nat) (hw : w ≠ sid) :
    findSkill (applySkillBackfillPatch s sid vid su pa) w = findSkill s w := by
  unfold applySkillBackfillPatch findSkill
  cases su with
  | none => cases pa <;> rfl
  | some str =>
    cases pa with
    | none =>
      exact find?_map_patch_ne (fun (x : Skill) => x.docId)
        (fun sk => { sk with summary := some str, updatedAt := s.now })
        (fun a => rfl) sid w hw s.skills
    | some q =>
      exact find?_map_patch_ne (fun (x : Skill) => x.docId)
        (fun sk => { sk with summary := some str, updatedAt := s.now })
        (fun a => rfl) sid w hw s.skills

theorem applyPatch_findVersion_other (s : Store) (sid vid : Nat) (su : Option String)
    (pa : Option ParsedSkillData) (wv : Nat) (hwv : wv ≠ vid) :
    findVersion (applySkillBackfillPatch s sid vid su pa) wv = findVersion s wv := by
  unfold applySkillBackfillPatch findVersion
  cases pa with
  | none => cases su <;> rfl
  | some q =>
    cases su with
    | none =>
      exact find?_map_patch_ne (fun (x : SkillVersion) => x.docId)
        (fun v => { v with parsed := q }) (fun a => rfl) vid wv hwv s.versions
    | some str =>
      exact find?_map_patch_ne (fun (x : SkillVersion) => x.docId)
        (fun v => { v with parsed := q }) (fun a => rfl) vid wv hwv s.versions

theorem applyPatch_findSkill_self (s : Store) (sid vid : Nat) (su : Option String)
    (pa : Option ParsedSkillData) (sk : Skill) (hfs : findSkill s sid = some sk) :
    findSkill (applySkillBackfillPatch s sid vid su pa) sid =
      some (match su with
        | some str => { sk with summary := some str, updatedAt := s.now }
        | none => sk) := by
  have hfs0 : s.skills.find? (fun x => x.docId == sid) = some sk := hfs
  have hkey0 := List.find?_some hfs0
  have hkey : (sk.docId == sid) = true := hkey0
  unfold applySkillBackfillPatch findSkill
  cases su with
  | none => cases pa <;> simpa using hfs
  | some str =>
    have hrw : (s.skills.map (fun sk2 => if sk2.docId == sid then
        { sk2 with summary := some str, updatedAt := s.now } else sk2)).find?
        (fun x => x.docId == sid) = some { sk with summary := some str, updatedAt := s.now } := by
      rw [find?_map_key (fun (x : Skill) => x.docId)
        (fun sk2 => if sk2.docId == sid then
          { sk2 with summary := some str, updatedAt := s.now } else sk2)
        (fun a => by by_cases hx : (a.docId == sid) = true <;> simp [hx]) sid s.skills]
      rw [show s.skills.find? (fun a => a.docId == sid) = some sk from hfs]
      have hd : sk.docId = sid := by simpa using hkey
      simp [hd]
    cases pa <;> exact hrw

theorem applyPatch_findVersion_self (s : Store) (sid vid : Nat) (su : Option String)
    (pa : Option ParsedSkillData) :
    findVersion (applySkillBackfillPatch s sid vid su pa) vid =
      (findVersion s vid).map (fun v => match pa with
        | some q => { v with parsed := q }
        | none => v) := by
  unfold applySkillBackfillPatch findVersion
  cases pa with
  | none =>
    cases su <;> simp [Option.map_id]
  | some q =>
    have hrw : (s.versions.map (fun v => if v.docId == vid then
        { v with parsed := q } else v)).find? (fun x => x.docId == vid) =
        (s.versions.find? (fun x => x.docId == vid)).map
          (fun v => { v with parsed := q }) := by
      rw [find?_map_key (fun (x : SkillVersion) => x.docId)
        (fun v => if v.docId == vid then { v with parsed := q } else v)
        (fun a => by by_cases hx : (a.docId == vid) = true <;> simp [hx]) vid s.versions]
      cases hfv : s.versions.find? (fun a => a.docId == vid) with
      | none => rfl
      | some v =>
        have hfv0 : List.find? (fun (a : SkillVersion) => a.docId == vid) s.versions =
            some v := hfv
        have hkey0 := List.find?_some hfv0
        have hkey : (v.docId == vid) = true := hkey0
        have hd : v.docId = vid := by simpa using hkey
        simp [hd]
    cases su <;> exact hrw

theorem applyPatch_skills_drop (s : Store) (sid vid : Nat) (su : Option String)
    (pa : Option ParsedSkillData) (d : Nat)
    (hnd : ∀ u ∈ s.skills.drop d, u.docId ≠ sid) :
    (applySkillBackfillPatch s sid vid su pa).skills.drop d = s.skills.drop d := by
  unfold applySkillBackfillPatch
  cases su with
  | none => cases pa <;> rfl
  | some str =>
    have hmap : (s.skills.map (fun sk2 => if sk2.docId == sid then
        { sk2 with summary := some str, updatedAt := s.now } else sk2)).drop d =
        s.skills.drop d := by
      apply map_patch_drop
      intro u hu
      rw [if_neg (by simp [hnd u hu])]
    cases pa <;> exact hmap

theorem summaryPatchFor_ref {dS : String → Option String}
    {dP : String → Option ParsedSkillData} {blobs : List (Nat × String)}
    {sB : Store} {sk : Skill} {p : SummaryPatch}
    (hpf : summaryPatchFor dS dP blobs sB sk = some p) :
    ∃ vid, sk.latestVersionId = some vid := by
  unfold summaryPatchFor at hpf
  cases hcl : classifySkill sB sk with
  | ok a b c d e =>
    obtain ⟨_, href, _⟩ := classifySkill_ok_inv hcl
    exact ⟨b, href⟩
  | missingLatestVersion a =>
    rw [hcl] at hpf
    exact absurd hpf (by simp)
  | missingVersionDoc a b =>
    rw [hcl] at hpf
    exact absurd hpf (by simp)
  | missingReadme a b =>
    rw [hcl] at hpf
    exact absurd hpf (by simp)

theorem summaryItemApply_other (dS : String → Option String)
    (dP : String → Option ParsedSkillData) (blobs : List (Nat × String))
    (sB s : Store) (sk w : Skill) (hwid : w.docId ≠ sk.docId)
    (hwref : ∀ vid, sk.latestVersionId = some vid → w.latestVersionId ≠ some vid) :
    sumLocalState (summaryItemApply dS dP blobs false (classifySkill sB sk) s) w =
      sumLocalState s w := by
  rw [summaryItemApply_classify]
  cases hpf : summaryPatchFor dS dP blobs sB sk with
  | none => rfl
  | some p =>
    cases href : sk.latestVersionId with
    | none => rfl
    | some vid =>
      unfold sumLocalState
      refine congrArg₂ Prod.mk ?_ ?_
      · exact applyPatch_findSkill_other s sk.docId vid p.summary p.parsed w.docId hwid
      · cases hwv : w.latestVersionId with
        | none => rfl
        | some wv =>
          exact applyPatch_findVersion_other s sk.docId vid p.summary p.parsed wv
            (fun hcon => hwref vid href (by rw [hwv, hcon]))

theorem summaryItemApply_drop (dS : String → Option String)
    (dP : String → Option ParsedSkillData) (blobs : List (Nat × String))
    (sB : Store) (sk : Skill) (s : Store) (d : Nat)
    (hnd : ∀ u ∈ s.skills.drop d, u.docId ≠ sk.docId) :
    (summaryItemApply dS dP blobs false (classifySkill sB sk) s).skills.drop d =
      s.skills.drop d := by
  rw [summaryItemApply_classify]
  cases summaryPatchFor dS dP blobs sB sk with
  | none => rfl
  | some p =>
    cases sk.latestVersionId with
    | none => rfl
    | some vid => exact applyPatch_skills_drop s sk.docId vid p.summary p.parsed d hnd

theorem summaryItemApply_self (dS : String → Option String)
    (dP : String → Option ParsedSkillData) (blobs : List (Nat × String))
    {sB s : Store} (hSnd : (sB.skills.map (fun x => x.docId)).Nodup)
    (hinv : SumInv sB s) {sk : Skill} (hsk : sk ∈ sB.skills)
    (hagree : sumLocalState s sk = sumLocalState sB sk) :
    sumLocalState (summaryItemApply dS dP blobs false (classifySkill sB sk) s) sk =
      sumFinalLocal dS dP blobs sB sk := by
  have hfsB : findSkill sB sk.docId = some sk := by
    unfold findSkill
    exact find?_key_of_mem (fun (x : Skill) => x.docId) hSnd hsk
  have hfs : findSkill s sk.docId = some sk := by
    have h1 := congrArg Prod.fst hagree
    simpa [sumLocalState, hfsB] using h1
  have hverA : ∀ vid, sk.latestVersionId = some vid →
      findVersion s vid = findVersion sB vid := by
    intro vid hvid
    have h2 := congrArg Prod.snd hagree
    simpa [sumLocalState, hvid] using h2
  rw [summaryItemApply_classify]
  cases hpf : summaryPatchFor dS dP blobs sB sk with
  | none =>
    unfold sumFinalLocal summarySkillOutcome summaryVersionOutcome
    rw [hpf]
    unfold sumLocalState
    refine congrArg₂ Prod.mk ?_ ?_
    · rw [hfs]
    · cases hvid : sk.latestVersionId with
      | none => rfl
      | some vid =>
        dsimp only
        rw [hverA vid hvid]
        cases findVersion sB vid <;> rfl
  | some p =>
    obtain ⟨vid, href⟩ := summaryPatchFor_ref hpf
    rw [href]
    unfold sumFinalLocal summarySkillOutcome summaryVersionOutcome
    rw [hpf, href]
    unfold sumLocalState
    dsimp only
    refine congrArg₂ Prod.mk ?_ ?_
    · rw [applyPatch_findSkill_self s sk.docId vid p.summary p.parsed sk hfs]
      cases p.summary with
      | none => rfl
      | some str =>
        dsimp only
        rw [hinv.nowEq, href]
    · rw [href]
      dsimp only
      rw [applyPatch_findVersion_self s sk.docId vid p.summary p.parsed]
      rw [hverA vid href]

theorem sumInv_refl (s : Store) : SumInv s s := ⟨rfl, rfl, rfl, rfl, rfl, rfl⟩

theorem sumInv_trans {s0 s1 s2 : Store} (h1 : SumInv s0 s1) (h2 : SumInv s1 s2) :
    SumInv s0 s2 :=
  ⟨h2.skillIds.trans h1.skillIds, h2.refs.trans h1.refs, h2.verIds.trans h1.verIds,
    h2.fpEq.trans h1.fpEq, h2.nowEq.trans h1.nowEq, h2.nextIdEq.trans h1.nextIdEq⟩

theorem sumNodup_transport {s0 s : Store} (hinv : SumInv s0 s)
    (hnd : (s0.skills.map (fun sk => sk.docId)).Nodup) :
    (s.skills.map (fun sk => sk.docId)).Nodup := by
  rw [hinv.skillIds]
  exact hnd

theorem refsInj_transport {s0 s : Store} (hinv : SumInv s0 s)
    (hp : s0.skills.Pairwise (fun a b => ∀ vid, a.latestVersionId = some vid →
      b.latestVersionId ≠ some vid)) :
    s.skills.Pairwise (fun a b => ∀ vid, a.latestVersionId = some vid →
      b.latestVersionId ≠ some vid) := by
  have h1 : (s0.skills.map (fun sk => sk.latestVersionId)).Pairwise
      (fun x y => ∀ vid, x = some vid → y ≠ some vid) := by
    rw [List.pairwise_map]
    exact hp
  rw [← hinv.refs] at h1
  rw [List.pairwise_map] at h1
  exact h1

theorem classifySkill_congr {s s0 : Store} (sk : Skill)
    (hv : ∀ vid, sk.latestVersionId = some vid →
      findVersion s vid = findVersion s0 vid) :
    classifySkill s sk = classifySkill s0 sk := by
  unfold classifySkill
  cases href : sk.latestVersionId with
  | none => rfl
  | some vid =>
    dsimp only
    rw [hv vid href]

theorem sumLocal_agree_find {s s0 : Store} {sk : Skill}
    (hagree : sumLocalState s sk = sumLocalState s0 sk) :
    ∀ vid, sk.latestVersionId = some vid →
      findVersion s vid = findVersion s0 vid := by
  intro vid hvid
  have h2 := congrArg Prod.snd hagree
  simpa [sumLocalState, hvid] using h2

theorem sumPage_items_congr {s s0 : Store} (pos bs : Nat)
    (htail : s.skills.drop pos = s0.skills.drop pos)
    (hv : ∀ sk ∈ s0.skills.drop pos, ∀ vid, sk.latestVersionId = some vid →
      findVersion s vid = findVersion s0 vid) :
    (getSkillBackfillPageCore s pos bs).items =
      (getSkillBackfillPageCore s0 pos bs).items := by
  unfold getSkillBackfillPageCore
  dsimp only
  rw [htail]
  apply List.map_congr_left
  intro sk hsk
  exact classifySkill_congr sk (hv sk ((List.take_sublist _ _).subset hsk))

theorem sumFinal_congr (dS : String → Option String)
    (dP : String → Option ParsedSkillData) (blobs : List (Nat × String))
    {s s0 : Store} (sk : Skill)
    (hv : ∀ vid, sk.latestVersionId = some vid →
      findVersion s vid = findVersion s0 vid)
    (hnow : s.now = s0.now) :
    sumFinalLocal dS dP blobs s sk = sumFinalLocal dS dP blobs s0 sk := by
  have hcl : classifySkill s sk = classifySkill s0 sk := classifySkill_congr sk hv
  have hpf : summaryPatchFor dS dP blobs s sk = summaryPatchFor dS dP blobs s0 sk := by
    unfold summaryPatchFor
    rw [hcl]
  unfold sumFinalLocal summarySkillOutcome summaryVersionOutcome
  refine congrArg₂ Prod.mk ?_ ?_
  · rw [hpf, hnow]
  · cases href : sk.latestVersionId with
    | none => rfl
    | some vid =>
      dsimp only
      rw [hpf, hv vid href]

theorem sumBatch_master (dS : String → Option String)
    (dP : String → Option ParsedSkillData) (blobs : List (Nat × String)) (sB : Store)
    (hSnd : (sB.skills.map (fun sk => sk.docId)).Nodup) :
    ∀ (P : List Skill) (s : Store),
      (∀ sk ∈ P, sk ∈ sB.skills) → (P.map (fun sk => sk.docId)).Nodup →
      P.Pairwise (fun a b => ∀ vid, a.latestVersionId = some vid →
        b.latestVersionId ≠ some vid) →
      SumInv sB s →
      (∀ sk ∈ P, sumLocalState s sk = sumLocalState sB sk) →
      ∀ s1, s1 = (P.map (classifySkill sB)).foldl
          (fun s2 item => summaryItemApply dS dP blobs false item s2) s →
      SumInv sB s1 ∧
      (∀ w : Skill, (∀ sk ∈ P, w.docId ≠ sk.docId ∧
          ∀ vid, sk.latestVersionId = some vid → w.latestVersionId ≠ some vid) →
        sumLocalState s1 w = sumLocalState s w) ∧
      (∀ d, (∀ sk ∈ P, ∀ u ∈ s.skills.drop d, u.docId ≠ sk.docId) →
        s1.skills.drop d = s.skills.drop d) ∧
      (∀ sk ∈ P, sumLocalState s1 sk = sumFinalLocal dS dP blobs sB sk) := by
  intro P
  induction P with
  | nil =>
    intro s _ _ _ hinv _ s1 hs1
    subst hs1
    exact ⟨hinv, fun w _ => rfl, fun d _ => rfl, by simp⟩
  | cons v rest ih =>
    intro s hPmem hPnd hPpw hinv hagree s1 hs1
    rw [List.map_cons, List.foldl_cons] at hs1
    have hvmem : v ∈ sB.skills := hPmem v (List.mem_cons_self _ _)
    have hrestmem : ∀ u ∈ rest, u ∈ sB.skills :=
      fun u hu => hPmem u (List.mem_cons_of_mem _ hu)
    have hPnd' := hPnd
    simp only [List.map_cons, List.nodup_cons] at hPnd'
    have hheadne : ∀ u ∈ rest, u.docId ≠ v.docId := by
      intro u hu hcon
      exact hPnd'.1 (hcon ▸ List.mem_map_of_mem _ hu)
    have hpw' := List.pairwise_cons.mp hPpw
    have hagreeA : ∀ u ∈ rest,
        sumLocalState (summaryItemApply dS dP blobs false (classifySkill sB v) s) u =
          sumLocalState sB u := by
      intro u hu
      rw [summaryItemApply_other dS dP blobs sB s v u (hheadne u hu) (hpw'.1 u hu)]
      exact hagree u (List.mem_cons_of_mem _ hu)
    obtain ⟨inv1, pres1, drop1, final1⟩ := ih
      (summaryItemApply dS dP blobs false (classifySkill sB v) s)
      hrestmem hPnd'.2 hpw'.2 (sumInv_itemApply hinv dS dP blobs sB v) hagreeA s1 hs1
    refine ⟨inv1, ?_, ?_, ?_⟩
    · intro w hwAll
      rw [pres1 w (fun u hu => hwAll u (List.mem_cons_of_mem _ hu))]
      obtain ⟨hw1, hw2⟩ := hwAll v (List.mem_cons_self _ _)
      exact summaryItemApply_other dS dP blobs sB s v w hw1 hw2
    · intro d hcond
      have hvd : ∀ u ∈ s.skills.drop d, u.docId ≠ v.docId :=
        fun u hu => hcond v (List.mem_cons_self _ _) u hu
      have hA : (summaryItemApply dS dP blobs false
          (classifySkill sB v) s).skills.drop d = s.skills.drop d :=
        summaryItemApply_drop dS dP blobs sB v s d hvd
      have hcond2 : ∀ u ∈ rest,
          ∀ w ∈ (summaryItemApply dS dP blobs false
            (classifySkill sB v) s).skills.drop d, w.docId ≠ u.docId := by
        intro u hu w hw
        rw [hA] at hw
        exact hcond u (List.mem_cons_of_mem _ hu) w hw
      rw [drop1 d hcond2, hA]
    · intro u hu
      rcases List.mem_cons.mp hu with rfl | humem
      · rw [pres1 u (fun w hw => ⟨fun hcon => hheadne w hw hcon.symm,
          fun vid hvid hcon => hpw'.1 w hw vid hcon hvid⟩)]
        exact summaryItemApply_self dS dP blobs hSnd hinv hvmem
          (hagree u (List.mem_cons_self _ _))
      · exact final1 u humem

theorem sumRun_master (dS : String → Option String)
    (dP : String → Option ParsedSkillData) (blobs : List (Nat × String)) (bs : Nat) :
    ∀ (fuel pos : Nat) (st : BackfillStats) (s0 s : Store),
      WFStore s0 → SumInv s0 s →
      s.skills.drop pos = s0.skills.drop pos →
      (∀ sk ∈ s0.skills.drop pos, sumLocalState s sk = sumLocalState s0 sk) →
      (Except.map Prod.fst (summaryRunBatches dS dP blobs false bs fuel pos (st, s)) =
        summaryStatsBatches dS dP blobs s0 bs fuel pos st) ∧
      (∀ stats s1, summaryRunBatches dS dP blobs false bs fuel pos (st, s) =
          .ok (stats, s1) →
        SumInv s0 s1 ∧
        (∀ sk ∈ s0.skills.drop pos, sumLocalState s1 sk =
          sumFinalLocal dS dP blobs s0 sk) ∧
        (∀ w : Skill, (∀ sk ∈ s0.skills.drop pos, w.docId ≠ sk.docId ∧
            ∀ vid, sk.latestVersionId = some vid → w.latestVersionId ≠ some vid) →
          sumLocalState s1 w = sumLocalState s w)) := by
  intro fuel
  induction fuel with
  | zero =>
    intro pos st s0 s hwf hinv htail hagree
    constructor
    · rfl
    · intro stats s1 heq
      exact absurd heq (by simp [summaryRunBatches])
  | succ n ihn =>
    intro pos st s0 s hwf hinv htail hagree
    have hSnd : (s.skills.map (fun sk => sk.docId)).Nodup :=
      sumNodup_transport hinv hwf.skillsNodup
    have hvcongr : ∀ sk ∈ s0.skills.drop pos, ∀ vid, sk.latestVersionId = some vid →
        findVersion s vid = findVersion s0 vid :=
      fun sk hsk => sumLocal_agree_find (hagree sk hsk)
    have hPmemS : ∀ sk ∈ (s0.skills.drop pos).take bs, sk ∈ s.skills := by
      intro sk hsk
      have hvs : sk ∈ s.skills.drop pos := by
        rw [htail]
        exact (List.take_sublist _ _).subset hsk
      exact (List.drop_sublist _ _).subset hvs
    have hPsubdrop : ∀ sk ∈ (s0.skills.drop pos).take bs,
        sk ∈ s0.skills.drop pos := fun sk hsk => (List.take_sublist _ _).subset hsk
    have hPnd : (((s0.skills.drop pos).take bs).map (fun sk => sk.docId)).Nodup :=
      List.Sublist.nodup (List.Sublist.map _
        ((List.take_sublist _ _).trans (List.drop_sublist _ _))) hwf.skillsNodup
    have hPpw : ((s0.skills.drop pos).take bs).Pairwise
        (fun a b => ∀ vid, a.latestVersionId = some vid →
          b.latestVersionId ≠ some vid) :=
      List.Pairwise.sublist ((List.take_sublist _ _).trans (List.drop_sublist _ _))
        hwf.refsInj
    have hPagreeB : ∀ sk ∈ (s0.skills.drop pos).take bs,
        sumLocalState s sk = sumLocalState s0 sk :=
      fun sk hsk => hagree sk (hPsubdrop sk hsk)
    have hitems_s : (getSkillBackfillPageCore s pos bs).items =
        ((s0.skills.drop pos).take bs).map (classifySkill s) := by
      unfold getSkillBackfillPageCore
      dsimp only
      rw [htail]
    obtain ⟨binv0, bpres, bdrop, bfinal⟩ := sumBatch_master dS dP blobs s hSnd
      ((s0.skills.drop pos).take bs) s hPmemS hPnd hPpw (sumInv_refl s)
      (fun sk _ => rfl)
      ((((s0.skills.drop pos).take bs).map (classifySkill s)).foldl
        (fun s2 item => summaryItemApply dS dP blobs false item s2) s) rfl
    have hinv1 : SumInv s0 ((((s0.skills.drop pos).take bs).map (classifySkill s)).foldl
        (fun s2 item => summaryItemApply dS dP blobs false item s2) s) :=
      sumInv_trans hinv binv0
    have hitems_eq : (getSkillBackfillPageCore s pos bs).items =
        (getSkillBackfillPageCore s0 pos bs).items :=
      sumPage_items_congr pos bs htail hvcongr
    have hlen : s.skills.length = s0.skills.length := by
      have := congrArg List.length hinv.skillIds
      simpa using this
    have hstore_fold : ((getSkillBackfillPageCore s pos bs).items.foldl
        (summaryProcessItem dS dP blobs false) (st, s)) =
        ((getSkillBackfillPageCore s pos bs).items.foldl
          (summaryItemStats dS dP blobs) st,
          ((((s0.skills.drop pos).take bs).map (classifySkill s)).foldl
            (fun s2 item => summaryItemApply dS dP blobs false item s2) s)) := by
      rw [summaryBatchFold_factor]
      rw [hitems_s]
    have hstats_fold : (getSkillBackfillPageCore s pos bs).items.foldl
        (summaryItemStats dS dP blobs) st =
        (getSkillBackfillPageCore s0 pos bs).items.foldl
          (summaryItemStats dS dP blobs) st := by rw [hitems_eq]
    have hdisjS : ∀ sk ∈ (s0.skills.drop pos).take bs,
        ∀ u ∈ s.skills.drop (pos + bs), u.docId ≠ sk.docId := by
      intro sk hsk u hu
      have hvS : sk ∈ (s.skills.drop pos).take bs := by
        rw [htail]
        exact hsk
      have huS : u ∈ (s.skills.drop pos).drop bs := by
        rw [List.drop_drop]
        exact hu
      exact take_drop_key_ne (fun x => x.docId)
        (List.Sublist.nodup (List.Sublist.map _ (List.drop_sublist _ _)) hSnd)
        bs sk hvS u huS
    have hsplit0 : s0.skills.drop pos =
        (s0.skills.drop pos).take bs ++ s0.skills.drop (pos + bs) := by
      have := (List.take_append_drop bs (s0.skills.drop pos)).symm
      rw [List.drop_drop] at this
      exact this
    have hmem_up : ∀ sk ∈ s0.skills.drop (pos + bs), sk ∈ s0.skills.drop pos := by
      intro sk hsk
      rw [hsplit0]
      exact List.mem_append_right _ hsk
    have hdisj0 : ∀ sk ∈ (s0.skills.drop pos).take bs,
        ∀ u ∈ s0.skills.drop (pos + bs), u.docId ≠ sk.docId := by
      intro sk hsk u hu
      have huS : u ∈ (s0.skills.drop pos).drop bs := by
        rw [List.drop_drop]
        exact hu
      exact take_drop_key_ne (fun x => x.docId)
        (List.Sublist.nodup (List.Sublist.map _ (List.drop_sublist _ _))
          hwf.skillsNodup) bs sk hsk u huS
    have hcross : ∀ sk ∈ (s0.skills.drop pos).take bs,
        ∀ u ∈ s0.skills.drop (pos + bs),
          ∀ vid, sk.latestVersionId = some vid → u.latestVersionId ≠ some vid := by
      have hpwdrop : (s0.skills.drop pos).Pairwise
          (fun a b => ∀ vid, a.latestVersionId = some vid →
            b.latestVersionId ≠ some vid) :=
        List.Pairwise.sublist (List.drop_sublist _ _) hwf.refsInj
      rw [hsplit0] at hpwdrop
      exact (List.pairwise_append.mp hpwdrop).2.2
    have hsep : ∀ u ∈ s0.skills.drop (pos + bs),
        ∀ sk ∈ (s0.skills.drop pos).take bs, u.docId ≠ sk.docId ∧
          ∀ vid, sk.latestVersionId = some vid → u.latestVersionId ≠ some vid :=
      fun u hu sk hsk => ⟨hdisj0 sk hsk u hu, hcross sk hsk u hu⟩
    have htailA : (((((s0.skills.drop pos).take bs).map (classifySkill s)).foldl
        (fun s2 item => summaryItemApply dS dP blobs false item s2) s)).skills.drop
          (pos + bs) = s.skills.drop (pos + bs) :=
      bdrop _ (fun sk hsk u hu => hdisjS sk hsk u hu)
    have htail' : (((((s0.skills.drop pos).take bs).map (classifySkill s)).foldl
        (fun s2 item => summaryItemApply dS dP blobs false item s2) s)).skills.drop
          (pos + bs) = s0.skills.drop (pos + bs) := by
      rw [htailA]
      have := congrArg (List.drop bs) htail
      rw [List.drop_drop, List.drop_drop] at this
      exact this
    have hagree' : ∀ sk ∈ s0.skills.drop (pos + bs),
        sumLocalState ((((s0.skills.drop pos).take bs).map (classifySkill s)).foldl
          (fun s2 item => summaryItemApply dS dP blobs false item s2) s) sk =
          sumLocalState s0 sk := by
      intro sk hsk
      rw [bpres sk (hsep sk hsk)]
      exact hagree sk (hmem_up sk hsk)
    have hfinal_congr : ∀ sk ∈ (s0.skills.drop pos).take bs,
        sumFinalLocal dS dP blobs s sk = sumFinalLocal dS dP blobs s0 sk := by
      intro sk hsk
      exact sumFinal_congr dS dP blobs sk
        (sumLocal_agree_find (hagree sk (hPsubdrop sk hsk))) hinv.nowEq
    constructor
    · rw [summaryRunBatches_succ, summaryStatsBatches_succ]
      dsimp only
      rw [hstore_fold, hstats_fold]
      by_cases hdn : s0.skills.length ≤ pos + bs
      · rw [if_pos (by unfold getSkillBackfillPageCore; simpa [hlen] using hdn),
          if_pos (by unfold getSkillBackfillPageCore; simpa using hdn)]
        rfl
      · rw [if_neg (by unfold getSkillBackfillPageCore; simpa [hlen] using hdn),
          if_neg (by unfold getSkillBackfillPageCore; simpa using hdn)]
        exact (ihn (pos + bs) _ s0 _ hwf hinv1 htail' hagree').1
    · intro stats s1 heq
      rw [summaryRunBatches_succ] at heq
      dsimp only at heq
      rw [hstore_fold] at heq
      by_cases hdn : s0.skills.length ≤ pos + bs
      · rw [if_pos (by unfold getSkillBackfillPageCore; simpa [hlen] using hdn)] at heq
        have hs1 : s1 = (((s0.skills.drop pos).take bs).map (classifySkill s)).foldl
            (fun s2 item => summaryItemApply dS dP blobs false item s2) s := by
          have := congrArg (fun x => Prod.snd <$> x) heq
          simpa using this.symm
        subst hs1
        have hPall : (s0.skills.drop pos).take bs = s0.skills.drop pos := by
          apply List.take_of_length_le
          rw [List.length_drop]
          omega
        refine ⟨hinv1, ?_, ?_⟩
        · intro sk hsk
          have hskP : sk ∈ (s0.skills.drop pos).take bs := by rw [hPall]; exact hsk
          rw [bfinal sk hskP]
          exact hfinal_congr sk hskP
        · intro w hw
          exact bpres w (fun p hp => hw p (by rw [← hPall]; exact hp))
      · rw [if_neg (by unfold getSkillBackfillPageCore; simpa [hlen] using hdn)] at heq
        obtain ⟨rinv, rfinal, rpres⟩ := (ihn (pos + bs) _ s0 _ hwf hinv1 htail'
          hagree').2 stats s1 heq
        refine ⟨rinv, ?_, ?_⟩
        · intro sk hsk
          rcases List.mem_append.mp (by rw [← hsplit0]; exact hsk) with hskP | hskD
          · rw [rpres sk (fun u hu => ⟨fun hcon => hdisj0 sk hskP u hu hcon.symm,
              fun vid hvid hcon => hcross sk hskP u hu vid hcon hvid⟩)]
            rw [bfinal sk hskP]
            exact hfinal_congr sk hskP
          · exact rfinal sk hskD
        · intro w hw
          rw [rpres w (fun sk hsk => hw sk (hmem_up sk hsk))]
          exact bpres w (fun p hp => hw p (hPsubdrop p hp))

theorem dedup_all_eq {l : List String} {c : String} (hne : l ≠ [])
    (hall : ∀ x ∈ l, x = c) : l.dedup = [c] := by
  induction l with
  | nil => exact absurd rfl hne
  | cons a t ih =>
    have ha : a = c := hall a (List.mem_cons_self _ _)
    cases t with
    | nil => rw [List.dedup_cons_of_not_mem (by simp), List.dedup_nil, ha]
    | cons b t2 =>
      have hb : b = c := hall b (List.mem_cons_of_mem _ (List.mem_cons_self _ _))
      have hmem : a ∈ b :: t2 := by
        rw [ha, ← hb]
        exact List.mem_cons_self _ _
      rw [List.dedup_cons_of_mem hmem]
      exact ih (by simp) (fun x hx => hall x (List.mem_cons_of_mem _ hx))

theorem fpFinalLocal_settled (h : List (String × String) → String) {s : Store}
    {v : SkillVersion} (hset : fpSettled h s v) (nid : Nat) :
    fpFinalLocal h s v nid = (some v, entriesFor s v.docId) := by
  obtain ⟨hf, hne, hall⟩ := hset
  unfold fpFinalLocal
  by_cases he : fpEmitCond s v = true
  · rw [if_pos he]
    have hsp : (fpItemDecision h (mkFpItem s v)).1 = false :=
      (fpItemDecision_fst h s v).mpr hf
    have hfetchne : fetchedEntries s v.docId ≠ [] := by
      unfold fetchedEntries
      simp only [ne_eq, List.take_eq_nil_iff]
      push_neg
      exact ⟨by omega, hne⟩
    have hdedup : (((fetchedEntries s v.docId).map
        (fun e => e.fingerprint))).dedup = [hashOfVersion h v] := by
      apply dedup_all_eq
      · simpa using hfetchne
      · intro x hx
        obtain ⟨e, he2, rfl⟩ := List.mem_map.mp hx
        exact hall e ((List.take_sublist _ _).subset he2)
    have hsr : (fpItemDecision h (mkFpItem s v)).2 = false :=
      (fpItemDecision_snd h s v).mpr ⟨hfetchne, by rw [hdedup]; rfl,
        by rw [hdedup]; exact List.mem_singleton.mpr rfl⟩
    unfold fpOutcomeDoc fpOutcomeEntries
    rw [if_neg (by simp [hsp]), if_neg (by simp [hsr])]
  · rw [if_neg he]

theorem build_fixpoint (dS : String → Option String)
    (dP : String → Option ParsedSkillData) (txt : String)
    (cursum : Option String) (curpar : ParsedSkillData) :
    buildSkillSummaryBackfillPatch dS dP txt
      (match (buildSkillSummaryBackfillPatch dS dP txt cursum curpar).summary with
       | some str => some str
       | none => cursum)
      (match (buildSkillSummaryBackfillPatch dS dP txt cursum curpar).parsed with
       | some q => q
       | none => curpar) = ⟨none, none⟩ := by
  unfold buildSkillSummaryBackfillPatch
  dsimp only
  simp only [SummaryPatch.mk.injEq]
  constructor
  · cases hS : dS txt with
    | none => rfl
    | some d =>
      dsimp only
      by_cases hc : cursum = some d
      · rw [if_pos hc]
        dsimp only
        rw [if_pos hc]
      · rw [if_neg hc]
        dsimp only
        rw [if_pos rfl]
  · cases hP : dP txt with
    | none => rfl
    | some q =>
      dsimp only
      by_cases hc : curpar = q
      · rw [if_pos hc]
        dsimp only
        rw [if_pos hc]
      · rw [if_neg hc]
        dsimp only
        rw [if_pos rfl]

theorem classifySkill_ok_full {sB : Store} {sk : Skill} {a b : Nat} {c : Option String}
    {d : ParsedSkillData} {e : Nat}
    (hcl : classifySkill sB sk = .ok a b c d e) :
    a = sk.docId ∧ sk.latestVersionId = some b ∧ c = sk.summary ∧
    ∃ version, findVersion sB b = some version ∧ d = version.parsed ∧
      ∃ f, findReadmeFile version.files = some f ∧ e = f.storageId := by
  unfold classifySkill at hcl
  cases href : sk.latestVersionId with
  | none =>
    simp only [href] at hcl
    exact absurd hcl (by simp)
  | some vid =>
    simp only [href] at hcl
    cases hfv : findVersion sB vid with
    | none =>
      simp only [hfv] at hcl
      exact absurd hcl (by simp)
    | some version =>
      simp only [hfv] at hcl
      cases hrd : findReadmeFile version.files with
      | none =>
        simp only [hrd] at hcl
        exact absurd hcl (by simp)
      | some f =>
        simp only [hrd] at hcl
        have hvd : version.docId = vid := by
          simpa using List.find?_some hfv
        simp only [BackfillPageItem.ok.injEq] at hcl
        obtain ⟨h1, h2, h3, h4, h5⟩ := hcl
        refine ⟨h1.symm, ?_, h3.symm, version, ?_, h4.symm, f, hrd, h5.symm⟩
        · rw [← h2, hvd]
        · rw [← h2, hvd]
          exact hfv

theorem summaryVersionOutcome_files (dS : String → Option String)
    (dP : String → Option ParsedSkillData) (blobs : List (Nat × String))
    (s0 : Store) (sk : Skill) (v : SkillVersion) :
    (summaryVersionOutcome dS dP blobs s0 sk v).files = v.files := by
  unfold summaryVersionOutcome
  cases summaryPatchFor dS dP blobs s0 sk with
  | none => rfl
  | some p =>
    dsimp only
    cases p.parsed <;> rfl

theorem sumHandler_local (dS : String → Option String)
    (dP : String → Option ParsedSkillData) (blobs : List (Nat × String))
    (args : BackfillActionArgs) (s : Store) (hwf : WFStore s)
    (hdry : args.dryRun.getD false = false)
    (stats : BackfillStats) (s1 : Store)
    (hrun : backfillSkillSummariesHandler dS dP blobs args s = .ok (stats, s1)) :
    SumInv s s1 ∧ ∀ sk ∈ s.skills,
      sumLocalState s1 sk = sumFinalLocal dS dP blobs s sk := by
  unfold backfillSkillSummariesHandler at hrun
  rw [hdry] at hrun
  obtain ⟨rinv, rfinal, _⟩ := (sumRun_master dS dP blobs _ _ 0 _ s s hwf
    (sumInv_refl s) rfl (fun sk _ => rfl)).2 stats s1 hrun
  refine ⟨rinv, fun sk hsk => rfinal sk ?_⟩
  simpa using hsk

theorem summaryRun_settles (dS : String → Option String)
    (dP : String → Option ParsedSkillData) (blobs : List (Nat × String))
    {s0 s1 : Store} (hwf : WFStore s0) (hinv : SumInv s0 s1)
    (hloc : ∀ sk ∈ s0.skills, sumLocalState s1 sk = sumFinalLocal dS dP blobs s0 sk) :
    SummarySettled dS dP blobs s1 := by
  intro sk1 hsk1 a vid cursum curpar sid hcl txt hblob
  obtain ⟨ha, href1, hcur, version1, hfv1, hpar, f, hrd1, hsid⟩ := classifySkill_ok_full hcl
  have hzip : s1.skills.map (fun sk => (sk.docId, sk.latestVersionId)) =
      s0.skills.map (fun sk => (sk.docId, sk.latestVersionId)) := by
    calc s1.skills.map (fun sk => (sk.docId, sk.latestVersionId))
        = (s1.skills.map (fun sk => sk.docId)).zip
            (s1.skills.map (fun sk => sk.latestVersionId)) := (List.zip_map' _ _ _).symm
      _ = (s0.skills.map (fun sk => sk.docId)).zip
            (s0.skills.map (fun sk => sk.latestVersionId)) := by
          rw [hinv.skillIds, hinv.refs]
      _ = s0.skills.map (fun sk => (sk.docId, sk.latestVersionId)) :=
          List.zip_map' _ _ _
  have hmem1 : (sk1.docId, sk1.latestVersionId) ∈
      s0.skills.map (fun sk => (sk.docId, sk.latestVersionId)) := by
    rw [← hzip]
    exact List.mem_map_of_mem _ hsk1
  obtain ⟨sk0, hsk0, hpair⟩ := List.mem_map.mp hmem1
  have hid0 : sk0.docId = sk1.docId := congrArg Prod.fst hpair
  have href0 : sk0.latestVersionId = sk1.latestVersionId := congrArg Prod.snd hpair
  have hloc0 := hloc sk0 hsk0
  have hs1nd : (s1.skills.map (fun sk => sk.docId)).Nodup := by
    rw [hinv.skillIds]
    exact hwf.skillsNodup
  have hfs1 : findSkill s1 sk1.docId = some sk1 := by
    unfold findSkill
    exact find?_key_of_mem (fun (x : Skill) => x.docId) hs1nd hsk1
  have hout_sk : sk1 = summarySkillOutcome dS dP blobs s0 sk0 := by
    have h1 := congrArg Prod.fst hloc0
    simp only [sumLocalState, sumFinalLocal] at h1
    rw [hid0, hfs1] at h1
    simpa using h1
  have hrefvid : sk0.latestVersionId = some vid := href0.trans href1
  have hver : findVersion s1 vid =
      (findVersion s0 vid).map (summaryVersionOutcome dS dP blobs s0 sk0) := by
    have h2 := congrArg Prod.snd hloc0
    simp only [sumLocalState, sumFinalLocal, hrefvid] at h2
    exact h2
  rw [hfv1] at hver
  cases hfv0 : findVersion s0 vid with
  | none =>
    rw [hfv0] at hver
    exact absurd hver (by simp)
  | some v0 =>
    rw [hfv0] at hver
    have hv1eq : version1 = summaryVersionOutcome dS dP blobs s0 sk0 v0 := by
      simpa using hver
    have hfv0u : List.find? (fun (x : SkillVersion) => x.docId == vid) s0.versions =
        some v0 := hfv0
    have hv0d : v0.docId = vid := by simpa using List.find?_some hfv0u
    have hrd0 : findReadmeFile v0.files = some f := by
      rw [← summaryVersionOutcome_files dS dP blobs s0 sk0 v0, ← hv1eq]
      exact hrd1
    have hcl0 : classifySkill s0 sk0 =
        .ok sk0.docId vid sk0.summary v0.parsed f.storageId := by
      unfold classifySkill
      rw [hrefvid]
      dsimp only
      rw [hfv0]
      dsimp only
      rw [hrd0]
      dsimp only
      rw [hv0d]
    have hblob0 : lookupBlob blobs f.storageId = some txt := by
      rw [← hsid]
      exact hblob
    by_cases hskip : (!jsTruthyStr
        (buildSkillSummaryBackfillPatch dS dP txt sk0.summary v0.parsed).summary &&
        (buildSkillSummaryBackfillPatch dS dP txt sk0.summary v0.parsed).parsed ==
          none) = true
    · have hpf0 : summaryPatchFor dS dP blobs s0 sk0 = none := by
        unfold summaryPatchFor
        rw [hcl0]
        dsimp only
        rw [hblob0]
        dsimp only
        rw [if_pos hskip]
      have hsk1eq : sk1 = sk0 := by
        rw [hout_sk]
        unfold summarySkillOutcome
        rw [hpf0]
      have hv1eq0 : version1 = v0 := by
        rw [hv1eq]
        unfold summaryVersionOutcome
        rw [hpf0]
      rw [hcur, hpar, hsk1eq, hv1eq0]
      exact hskip
    · have hpf0 : summaryPatchFor dS dP blobs s0 sk0 =
          some (buildSkillSummaryBackfillPatch dS dP txt sk0.summary v0.parsed) := by
        unfold summaryPatchFor
        rw [hcl0]
        dsimp only
        rw [hblob0]
        dsimp only
        rw [if_neg hskip]
      have hsum1 : sk1.summary = (match (buildSkillSummaryBackfillPatch dS dP txt
          sk0.summary v0.parsed).summary with
        | some str => some str
        | none => sk0.summary) := by
        rw [hout_sk]
        unfold summarySkillOutcome
        rw [hpf0]
        dsimp only
        cases (buildSkillSummaryBackfillPatch dS dP txt sk0.summary v0.parsed).summary <;>
          rfl
      have hpar1 : version1.parsed = (match (buildSkillSummaryBackfillPatch dS dP txt
          sk0.summary v0.parsed).parsed with
        | some q => q
        | none => v0.parsed) := by
        rw [hv1eq]
        unfold summaryVersionOutcome
        rw [hpf0]
        dsimp only
        cases (buildSkillSummaryBackfillPatch dS dP txt sk0.summary v0.parsed).parsed <;>
          rfl
      rw [hcur, hpar, hsum1, hpar1]
      rw [build_fixpoint dS dP txt sk0.summary v0.parsed]
      rfl

theorem summaryProcessItem_settled (dS : String → Option String)
    (dP : String → Option ParsedSkillData) (blobs : List (Nat × String))
    (dry : Bool) {s : Store} (hset : SummarySettled dS dP blobs s)
    {sk : Skill} (hsk : sk ∈ s.skills) (st : BackfillStats) :
    (summaryProcessItem dS dP blobs dry (st, s) (classifySkill s sk)).2 = s ∧
    (summaryProcessItem dS dP blobs dry (st, s)
      (classifySkill s sk)).1.skillsPatched = st.skillsPatched ∧
    (summaryProcessItem dS dP blobs dry (st, s)
      (classifySkill s sk)).1.versionsPatched = st.versionsPatched := by
  cases hcl : classifySkill s sk with
  | missingLatestVersion a => exact ⟨rfl, rfl, rfl⟩
  | missingVersionDoc a b => exact ⟨rfl, rfl, rfl⟩
  | missingReadme a b => exact ⟨rfl, rfl, rfl⟩
  | ok a b c d e =>
    unfold summaryProcessItem
    dsimp only
    cases hblob : lookupBlob blobs e with
    | none => simp [hblob]
    | some txt =>
      simp only [hblob]
      have hskip := hset sk hsk a b c d e hcl txt hblob
      rw [if_pos hskip]
      exact ⟨rfl, rfl, rfl⟩

theorem summaryFold_settled (dS : String → Option String)
    (dP : String → Option ParsedSkillData) (blobs : List (Nat × String))
    (dry : Bool) {s : Store} (hset : SummarySettled dS dP blobs s) :
    ∀ (P : List Skill), (∀ sk ∈ P, sk ∈ s.skills) → ∀ st : BackfillStats,
    ((P.map (classifySkill s)).foldl
      (summaryProcessItem dS dP blobs dry) (st, s)).2 = s ∧
    ((P.map (classifySkill s)).foldl
      (summaryProcessItem dS dP blobs dry) (st, s)).1.skillsPatched =
        st.skillsPatched ∧
    ((P.map (classifySkill s)).foldl
      (summaryProcessItem dS dP blobs dry) (st, s)).1.versionsPatched =
        st.versionsPatched := by
  intro P
  induction P with
  | nil =>
    intro _ st
    exact ⟨rfl, rfl, rfl⟩
  | cons v rest ih =>
    intro hmem st
    rw [List.map_cons, List.foldl_cons]
    obtain ⟨h2, h3, h4⟩ := summaryProcessItem_settled dS dP blobs dry hset
      (hmem v (List.mem_cons_self _ _)) st
    rcases hq : summaryProcessItem dS dP blobs dry (st, s) (classifySkill s v) with
      ⟨st2, s2⟩
    rw [hq] at h2 h3 h4
    dsimp only at h2 h3 h4
    subst h2
    obtain ⟨i2, i3, i4⟩ := ih (fun u hu => hmem u (List.mem_cons_of_mem _ hu)) st2
    exact ⟨i2, i3.trans h3, i4.trans h4⟩

theorem summaryRun_noop (dS : String → Option String)
    (dP : String → Option ParsedSkillData) (blobs : List (Nat × String))
    (dry : Bool) (bs : Nat) :
    ∀ (fuel pos : Nat) (st : BackfillStats) (s : Store),
      SummarySettled dS dP blobs s →
      ∀ stats s1, summaryRunBatches dS dP blobs dry bs fuel pos (st, s) =
        .ok (stats, s1) →
      s1 = s ∧ stats.skillsPatched = st.skillsPatched ∧
        stats.versionsPatched = st.versionsPatched := by
  intro fuel
  induction fuel with
  | zero =>
    intro pos st s hset stats s1 heq
    exact absurd heq (by simp [summaryRunBatches])
  | succ n ihn =>
    intro pos st s hset stats s1 heq
    rw [summaryRunBatches_succ] at heq
    dsimp only at heq
    have hmemP : ∀ sk ∈ (s.skills.drop pos).take bs, sk ∈ s.skills :=
      fun sk hsk =>
        ((List.take_sublist _ _).trans (List.drop_sublist _ _)).subset hsk
    obtain ⟨f2, f3, f4⟩ := summaryFold_settled dS dP blobs dry hset
      ((s.skills.drop pos).take bs) hmemP st
    have hitems : (getSkillBackfillPageCore s pos bs).items =
        ((s.skills.drop pos).take bs).map (classifySkill s) := rfl
    rw [hitems] at heq
    rcases hq : (((s.skills.drop pos).take bs).map (classifySkill s)).foldl
        (summaryProcessItem dS dP blobs dry) (st, s) with ⟨st2, s2⟩
    rw [hq] at heq f2 f3 f4
    dsimp only at f2 f3 f4
    rw [f2] at heq
    by_cases hdn : (getSkillBackfillPageCore s pos bs).isDone = true
    · rw [if_pos hdn] at heq
      have hinj : st2 = stats ∧ s = s1 := by simpa using heq
      refine ⟨hinj.2.symm, ?_, ?_⟩
      · rw [← hinj.1]
        exact f3
      · rw [← hinj.1]
        exact f4
    · rw [if_neg hdn] at heq
      obtain ⟨i1, i2, i3⟩ := ihn (pos + bs) st2 s hset stats s1 heq
      exact ⟨i1, i2.trans f3, i3.trans f4⟩

theorem except_map_pair_fst {α : Type} (e : Except String α) (s : Store) :
    Except.map Prod.fst (e.map (fun x => (x, s))) = e := by
  cases e <;> rfl

/-- C3: with dryRun=true neither backfill job mutates the store (an ok
result returns the input store unchanged), and for a well-formed store the
stats either job computes in dry-run mode are exactly the stats the
corresponding real (dryRun=false) run with the same batchSize and maxBatches
over the same store computes, including agreement on the incompleteness
error. -/
theorem backfill_dry_run_invariance (dS : String → Option String)
    (dP : String → Option ParsedSkillData) (blobs : List (Nat × String))
    (h : List (String × String) → String) (argsD argsR : BackfillActionArgs)
    (s : Store) (hwf : WFStore s) (hd : argsD.dryRun = some true)
    (hr : argsR.dryRun.getD false = false)
    (hbs : argsD.batchSize = argsR.batchSize)
    (hmb : argsD.maxBatches = argsR.maxBatches) :
    (∀ st1 s1, backfillSkillSummariesHandler dS dP blobs argsD s = .ok (st1, s1) →
      s1 = s) ∧
    (∀ st1 s1, backfillSkillFingerprintsHandler h argsD s = .ok (st1, s1) →
      s1 = s) ∧
    Except.map Prod.fst (backfillSkillSummariesHandler dS dP blobs argsD s) =
      Except.map Prod.fst (backfillSkillSummariesHandler dS dP blobs argsR s) ∧
    Except.map Prod.fst (backfillSkillFingerprintsHandler h argsD s) =
      Except.map Prod.fst (backfillSkillFingerprintsHandler h argsR s) := by
  have hdg : argsD.dryRun.getD false = true := by rw [hd]; rfl
  refine ⟨?_, ?_, ?_, ?_⟩
  · intro st1 s1 hrun
    unfold backfillSkillSummariesHandler at hrun
    rw [hdg, summaryRunBatches_dry] at hrun
    cases hsb : summaryStatsBatches dS dP blobs s
        ((clampInt (argsD.batchSize.getD defaultBatchSize) 1 maxBatchSizeBound).toNat)
        ((clampInt (argsD.maxBatches.getD defaultMaxBatches) 1 maxMaxBatchesBound).toNat)
        0 BackfillStats.init with
    | error msg =>
      rw [hsb] at hrun
      exact absurd hrun (by simp [Except.map])
    | ok stx =>
      rw [hsb] at hrun
      have hp : (stx, s) = (st1, s1) := by simpa [Except.map] using hrun
      exact (congrArg Prod.snd hp).symm
  · intro st1 s1 hrun
    unfold backfillSkillFingerprintsHandler at hrun
    rw [hdg, fpRunBatches_dry] at hrun
    cases hsb : fpStatsBatches h s
        ((clampInt (argsD.batchSize.getD defaultBatchSize) 1 maxBatchSizeBound).toNat)
        ((clampInt (argsD.maxBatches.getD defaultMaxBatches) 1 maxMaxBatchesBound).toNat)
        0 FingerprintBackfillStats.init with
    | error msg =>
      rw [hsb] at hrun
      exact absurd hrun (by simp [Except.map])
    | ok stx =>
      rw [hsb] at hrun
      have hp : (stx, s) = (st1, s1) := by simpa [Except.map] using hrun
      exact (congrArg Prod.snd hp).symm
  · unfold backfillSkillSummariesHandler
    rw [hdg, hr, summaryRunBatches_dry, except_map_pair_fst, hbs, hmb]
    exact ((sumRun_master dS dP blobs _ _ 0 BackfillStats.init s s hwf
      (sumInv_refl s) rfl (fun sk _ => rfl)).1).symm
  · unfold backfillSkillFingerprintsHandler
    rw [hdg, hr, fpRunBatches_dry, except_map_pair_fst, hbs, hmb]
    exact ((fpRun_master h _ _ 0 FingerprintBackfillStats.init s s hwf
      (fpInv_refl s hwf) rfl (fun v _ => rfl)).1).symm

theorem backfill_dry_run_invariance_witness :
    WFStore (⟨[], [], [], 0, 0⟩ : Store) ∧
    Except.map Prod.fst (backfillSkillSummariesHandler (fun _ => none)
        (fun _ => none) [] ⟨some true, none, none⟩ ⟨[], [], [], 0, 0⟩) =
      Except.map Prod.fst (backfillSkillSummariesHandler (fun _ => none)
        (fun _ => none) [] ⟨some false, none, none⟩ ⟨[], [], [], 0, 0⟩) := by
  have hwfE : WFStore (⟨[], [], [], 0, 0⟩ : Store) :=
    ⟨List.nodup_nil, List.nodup_nil, List.nodup_nil, by simp, List.Pairwise.nil⟩
  exact ⟨hwfE, (backfill_dry_run_invariance (fun _ => none) (fun _ => none) []
    (fun _ => "") ⟨some true, none, none⟩ ⟨some false, none, none⟩ _
    hwfE rfl rfl rfl rfl).2.2.1⟩

/-- C4: after a completed non-dry-run pass, re-running either job is a no-op
on the corrected records.  For the summary job the second run (with any
arguments) changes nothing at all and reports skillsPatched = 0 and
versionsPatched = 0; for the fingerprint job every version left in the
settled state (stored fingerprint equal to the canonical hash and at least
one entry all of whose copies carry that hash) keeps its document and its
fingerprint entries unchanged through the second run. -/
theorem backfill_idempotent (dS : String → Option String)
    (dP : String → Option ParsedSkillData) (blobs : List (Nat × String))
    (h : List (String × String) → String) (args1 args2 : BackfillActionArgs)
    (s : Store) (hwf : WFStore s) (hdry1 : args1.dryRun.getD false = false) :
    (∀ st1 s1, backfillSkillSummariesHandler dS dP blobs args1 s = .ok (st1, s1) →
      ∀ st2 s2, backfillSkillSummariesHandler dS dP blobs args2 s1 = .ok (st2, s2) →
        s2 = s1 ∧ st2.skillsPatched = 0 ∧ st2.versionsPatched = 0) ∧
    (∀ st1 s1, backfillSkillFingerprintsHandler h args1 s = .ok (st1, s1) →
      ∀ st2 s2, backfillSkillFingerprintsHandler h args2 s1 = .ok (st2, s2) →
        ∀ v ∈ s1.versions, fpSettled h s1 v →
          fpLocalState s2 v.docId = fpLocalState s1 v.docId) := by
  constructor
  · intro st1 s1 hrun1 st2 s2 hrun2
    obtain ⟨hinv1, hloc1⟩ := sumHandler_local dS dP blobs args1 s hwf hdry1 st1 s1 hrun1
    have hset : SummarySettled dS dP blobs s1 :=
      summaryRun_settles dS dP blobs hwf hinv1 hloc1
    unfold backfillSkillSummariesHandler at hrun2
    exact summaryRun_noop dS dP blobs (args2.dryRun.getD false)
      ((clampInt (args2.batchSize.getD defaultBatchSize) 1 maxBatchSizeBound).toNat)
      ((clampInt (args2.maxBatches.getD defaultMaxBatches) 1 maxMaxBatchesBound).toNat)
      0 BackfillStats.init s1 hset st2 s2 hrun2
  · intro st1 s1 hrun1 st2 s2 hrun2 v hv hset
    obtain ⟨hinv1, _⟩ := fpHandler_local h args1 s hwf hdry1 st1 s1 hrun1
    have hwf1 : WFStore s1 := wfStore_of_fpInv hwf hinv1
    have hfv1 : findVersion s1 v.docId = some v := by
      unfold findVersion
      exact find?_key_of_mem (fun u => u.docId) hwf1.versionsNodup hv
    by_cases hdry2 : args2.dryRun.getD false = false
    · obtain ⟨hinv2, hloc2⟩ := fpHandler_local h args2 s1 hwf1 hdry2 st2 s2 hrun2
      obtain ⟨nid, hnid, hfin⟩ := hloc2 v hv
      rw [hfin, fpFinalLocal_settled h hset nid]
      unfold fpLocalState
      rw [hfv1]
    · have hd2 : args2.dryRun.getD false = true := by
        cases hx : args2.dryRun.getD false
        · exact absurd hx hdry2
        · rfl
      unfold backfillSkillFingerprintsHandler at hrun2
      rw [hd2, fpRunBatches_dry] at hrun2
      cases hsb : fpStatsBatches h s1
          ((clampInt (args2.batchSize.getD defaultBatchSize) 1 maxBatchSizeBound).toNat)
          ((clampInt (args2.maxBatches.getD defaultMaxBatches) 1 maxMaxBatchesBound).toNat)
          0 FingerprintBackfillStats.init with
      | error msg =>
        rw [hsb] at hrun2
        exact absurd hrun2 (by simp [Except.map])
      | ok stx =>
        rw [hsb] at hrun2
        have hp : (stx, s1) = (st2, s2) := by simpa [Except.map] using hrun2
        have hs21 : s2 = s1 := (congrArg Prod.snd hp).symm
        rw [hs21]

theorem backfill_idempotent_witness :
    (WFStore (⟨[], [], [], 0, 0⟩ : Store) ∧
      (⟨some false, none, none⟩ : BackfillActionArgs).dryRun.getD false = false) ∧
    (∀ st1 s1, backfillSkillSummariesHandler (fun _ => none) (fun _ => none) []
        ⟨some false, none, none⟩ ⟨[], [], [], 0, 0⟩ = .ok (st1, s1) →
      ∀ st2 s2, backfillSkillSummariesHandler (fun _ => none) (fun _ => none) []
          ⟨some false, none, none⟩ s1 = .ok (st2, s2) →
        s2 = s1 ∧ st2.skillsPatched = 0 ∧ st2.versionsPatched = 0) := by
  have hwfE : WFStore (⟨[], [], [], 0, 0⟩ : Store) :=
    ⟨List.nodup_nil, List.nodup_nil, List.nodup_nil, by simp, List.Pairwise.nil⟩
  exact ⟨⟨hwfE, rfl⟩, (backfill_idempotent (fun _ => none) (fun _ => none) []
    (fun _ => "") ⟨some false, none, none⟩ ⟨some false, none, none⟩ _ hwfE rfl).1⟩
